import Mathlib

/-!
Verification of the interior-design recolor core.

This file gives a shallow embedding of the photo-recolor pipeline of the
repository (color-space utilities, the Retinex and learned-decomposition
recolor compositors, the history manager, the mask utilities and the
connected-component filter) and proves the frozen claims about them.

Modelling conventions:
* JavaScript `number` arithmetic is idealized: a finite double is an exact
  real number.  Where a computation can produce `NaN` or `Infinity`
  (the unguarded divisions inside the recolor compositors), values are
  modelled by the type `JSVal` which is a real number, `NaN`, `Infinity`
  or `-Infinity`, with the operations defined to follow IEEE-754 / JS
  semantics for those special values (a single zero is used; the signed
  zero of IEEE-754 plays no role in the code paths modelled here).
* An RGBA `ImageData` buffer is a function from flat byte index to byte
  value; `Uint8ClampedArray` stores are modelled by `Function.update`
  together with the `ToUint8Clamp` conversion (clamp to `[0,255]`,
  round-half-to-even, `NaN ↦ 0`).
* A `Uint32Array` of pixel indices is a `List ℕ`; a hex color string
  `#rrggbb` is the triple of its three parsed byte components.
-/

noncomputable section

open Classical

/-! ## Idealized JavaScript numbers -/

/-- An idealized JavaScript `number`: an exact real, `NaN`, `Infinity` or
`-Infinity`. -/
inductive JSVal where
  | num (x : ℝ)
  | nan
  | inf
  | ninf

namespace JSVal

/-- JS `-x`. -/
def jneg : JSVal → JSVal
  | num x => num (-x)
  | nan => nan
  | inf => ninf
  | ninf => inf

/-- JS `a + b`. -/
def jadd : JSVal → JSVal → JSVal
  | num a, num b => num (a + b)
  | num _, inf => inf
  | num _, ninf => ninf
  | inf, num _ => inf
  | ninf, num _ => ninf
  | inf, inf => inf
  | ninf, ninf => ninf
  | inf, ninf => nan
  | ninf, inf => nan
  | nan, _ => nan
  | _, nan => nan

/-- JS `a - b`. -/
def jsub (a b : JSVal) : JSVal := jadd a (jneg b)

/-- JS `a * b` (`0 * ±Infinity = NaN`). -/
def jmul : JSVal → JSVal → JSVal
  | num a, num b => num (a * b)
  | num a, inf => if 0 < a then inf else if a < 0 then ninf else nan
  | num a, ninf => if 0 < a then ninf else if a < 0 then inf else nan
  | inf, num b => if 0 < b then inf else if b < 0 then ninf else nan
  | ninf, num b => if 0 < b then ninf else if b < 0 then inf else nan
  | inf, inf => inf
  | ninf, ninf => inf
  | inf, ninf => ninf
  | ninf, inf => ninf
  | nan, _ => nan
  | _, nan => nan

/-- JS `a / b` (`x / 0` is `±Infinity` for `x ≠ 0` and `NaN` for `x = 0`). -/
def jdiv : JSVal → JSVal → JSVal
  | num a, num b =>
      if b = 0 then (if 0 < a then inf else if a < 0 then ninf else nan)
      else num (a / b)
  | num _, inf => num 0
  | num _, ninf => num 0
  | inf, num b => if 0 ≤ b then inf else ninf
  | ninf, num b => if 0 ≤ b then ninf else inf
  | inf, inf => nan
  | inf, ninf => nan
  | ninf, inf => nan
  | ninf, ninf => nan
  | nan, _ => nan
  | _, nan => nan

/-- JS `a < b` (always false when either side is `NaN`). -/
def jlt : JSVal → JSVal → Prop
  | num a, num b => a < b
  | num _, inf => True
  | ninf, num _ => True
  | ninf, inf => True
  | _, _ => False

/-- JS `Math.max(a, b)` (`NaN` if either argument is `NaN`). -/
def jmax : JSVal → JSVal → JSVal
  | num a, num b => num (max a b)
  | num _, inf => inf
  | inf, num _ => inf
  | num a, ninf => num a
  | ninf, num b => num b
  | inf, inf => inf
  | ninf, ninf => ninf
  | inf, ninf => inf
  | ninf, inf => inf
  | nan, _ => nan
  | _, nan => nan

/-- JS `Math.min(a, b)` (`NaN` if either argument is `NaN`). -/
def jmin : JSVal → JSVal → JSVal
  | num a, num b => num (min a b)
  | num a, inf => num a
  | inf, num b => num b
  | num _, ninf => ninf
  | ninf, num _ => ninf
  | inf, inf => inf
  | ninf, ninf => ninf
  | inf, ninf => ninf
  | ninf, inf => ninf
  | nan, _ => nan
  | _, nan => nan

/-- Round half to even, as used by the `Uint8ClampedArray` store conversion. -/
def roundHalfEven (x : ℝ) : ℤ :=
  if Int.fract x < 1 / 2 then ⌊x⌋
  else if 1 / 2 < Int.fract x then ⌊x⌋ + 1
  else if Even ⌊x⌋ then ⌊x⌋ else ⌊x⌋ + 1

/-- The ECMAScript `ToUint8Clamp` conversion performed by a store into a
`Uint8ClampedArray`: `NaN ↦ 0`, clamp to `[0, 255]`, round half to even. -/
def toUint8Clamp : JSVal → ℕ
  | num x => if x ≤ 0 then 0 else if 255 ≤ x then 255 else (roundHalfEven x).toNat
  | nan => 0
  | inf => 255
  | ninf => 0

@[simp] theorem jadd_num (a b : ℝ) : jadd (num a) (num b) = num (a + b) := rfl

@[simp] theorem jsub_num (a b : ℝ) : jsub (num a) (num b) = num (a + -b) := rfl

@[simp] theorem jmul_num (a b : ℝ) : jmul (num a) (num b) = num (a * b) := rfl

@[simp] theorem jmax_num (a b : ℝ) : jmax (num a) (num b) = num (max a b) := rfl

@[simp] theorem jmin_num (a b : ℝ) : jmin (num a) (num b) = num (min a b) := rfl

theorem jdiv_num_of_ne {b : ℝ} (a : ℝ) (hb : b ≠ 0) :
    jdiv (num a) (num b) = num (a / b) := by
  simp [jdiv, hb]

@[simp] theorem jlt_num (a b : ℝ) : jlt (num a) (num b) ↔ a < b := Iff.rfl

end JSVal

/-! ## Color-space utilities (src/lib/color.ts)

The numeric functions of the color library, idealized over the reals. -/

/-- `srgbToLinear(value)`: standard piecewise sRGB decode of a byte. -/
def srgbToLinear (value : ℝ) : ℝ :=
  let v := value / 255
  if v ≤ 0.04045 then v / 12.92 else ((v + 0.055) / 1.055) ^ (2.4 : ℝ)

/-- `linearToSrgb(value)`: inverse sRGB encode, clamped to `[0,1]` and scaled
to `[0,255]` (the source returns the unrounded float). -/
def linearToSrgb (value : ℝ) : ℝ :=
  let v := if value ≤ 0.0031308 then 12.92 * value
           else 1.055 * value ^ ((1 : ℝ) / 2.4) - 0.055
  min 1 (max 0 v) * 255

/-- JS `Math.cbrt` over the reals. -/
def jcbrt (x : ℝ) : ℝ :=
  if 0 ≤ x then x ^ ((1 : ℝ) / 3) else -((-x) ^ ((1 : ℝ) / 3))

/-- `f(t)` of the Lab forward transform. -/
def labF (t : ℝ) : ℝ :=
  if 0.008856 < t then jcbrt t else 7.787 * t + 16 / 116

/-- `finv(t)` of the Lab inverse transform. -/
def labFinv (t : ℝ) : ℝ :=
  let t3 := t * t * t
  if 0.008856 < t3 then t3 else (t - 16 / 116) / 7.787

/-- `linearRgbToXyz`. -/
def linearRgbToXyz (r g b : ℝ) : ℝ × ℝ × ℝ :=
  (r * 0.4124564 + g * 0.3575761 + b * 0.1804375,
   r * 0.2126729 + g * 0.7151522 + b * 0.0721750,
   r * 0.0193339 + g * 0.1191920 + b * 0.9503041)

/-- `xyzToLinearRgb`. -/
def xyzToLinearRgb (x y z : ℝ) : ℝ × ℝ × ℝ :=
  (x * 3.2404542 + y * (-1.5371385) + z * (-0.4985314),
   x * (-0.9692660) + y * 1.8760108 + z * 0.0415560,
   x * 0.0556434 + y * (-0.2040259) + z * 1.0572252)

/-- `linearRgbToLab`. -/
def linearRgbToLab (r g b : ℝ) : ℝ × ℝ × ℝ :=
  let p := linearRgbToXyz r g b
  let fx := labF (p.1 / 0.95047)
  let fy := labF (p.2.1 / 1.0)
  let fz := labF (p.2.2 / 1.08883)
  (116 * fy - 16, 500 * (fx - fy), 200 * (fy - fz))

/-- `labToLinearRgb`. -/
def labToLinearRgb (L a b : ℝ) : ℝ × ℝ × ℝ :=
  let fy := (L + 16) / 116
  let fx := fy + a / 500
  let fz := fy - b / 200
  xyzToLinearRgb (0.95047 * labFinv fx) (1.0 * labFinv fy) (1.08883 * labFinv fz)

/-- A parsed `#rrggbb` hex color: the three byte components. -/
structure HexColor where
  r : ℕ
  g : ℕ
  b : ℕ

/-- `hexToLab(hex)`: per-channel sRGB decode followed by `linearRgbToLab`. -/
def hexToLab (c : HexColor) : ℝ × ℝ × ℝ :=
  linearRgbToLab (srgbToLinear c.r) (srgbToLinear c.g) (srgbToLinear c.b)

/-- `hexToLinearRgb(hex)` of src/lib/intrinsic/color-transfer.ts. -/
def hexToLinearRgb (c : HexColor) : ℝ × ℝ × ℝ :=
  (srgbToLinear c.r, srgbToLinear c.g, srgbToLinear c.b)

/-! ### The sRGB round trip (claim C9) -/

theorem srgbToLinear_of_le {v : ℝ} (h : v / 255 ≤ 0.04045) :
    srgbToLinear v = (v / 255) / 12.92 := by
  simp [srgbToLinear, h]

theorem srgbToLinear_of_gt {v : ℝ} (h : ¬ v / 255 ≤ 0.04045) :
    srgbToLinear v = ((v / 255 + 0.055) / 1.055) ^ (2.4 : ℝ) := by
  simp [srgbToLinear, h]

theorem linearToSrgb_of_le {x : ℝ} (h : x ≤ 0.0031308) :
    linearToSrgb x = min 1 (max 0 (12.92 * x)) * 255 := by
  simp [linearToSrgb, h]

theorem linearToSrgb_of_gt {x : ℝ} (h : ¬ x ≤ 0.0031308) :
    linearToSrgb x = min 1 (max 0 (1.055 * x ^ ((1 : ℝ) / 2.4) - 0.055)) * 255 := by
  simp [linearToSrgb, h]

/-- In the real-number idealization the sRGB decode/encode pair is exactly
inverse on the integer byte values 0..255.  (Integrality matters: the two
branch thresholds satisfy `0.0031308 * 12.92 = 0.04044994 < 0.04045`, so the
claim would fail for a real input in the sliver between them, but no integer
divided by 255 lands there.) -/
theorem linearToSrgb_srgbToLinear_exact (v : ℕ) (h1 : v ≤ 255) :
    linearToSrgb (srgbToLinear v) = v := by
  have h1r : (v : ℝ) ≤ 255 := by exact_mod_cast h1
  have hv0 : 0 ≤ (v : ℝ) / 255 := by positivity
  have hv1 : (v : ℝ) / 255 ≤ 1 := by
    rw [div_le_one (by norm_num : (0:ℝ) < 255)]; exact h1r
  rcases le_or_lt v 10 with hsmall | hbig
  · have hsr : (v : ℝ) ≤ 10 := by exact_mod_cast hsmall
    have hb : (v : ℝ) / 255 ≤ 0.04045 := by
      rw [div_le_iff₀ (by norm_num : (0:ℝ) < 255)]; linarith
    rw [srgbToLinear_of_le hb]
    have hlin : (v : ℝ) / 255 / 12.92 ≤ 0.0031308 := by
      rw [div_le_iff₀ (by norm_num : (0:ℝ) < 12.92),
        div_le_iff₀ (by norm_num : (0:ℝ) < 255)]
      linarith
    rw [linearToSrgb_of_le hlin]
    have hmul : 12.92 * ((v : ℝ) / 255 / 12.92) = (v : ℝ) / 255 := by
      field_simp
      ring
    rw [hmul, max_eq_right hv0, min_eq_right hv1]
    field_simp
  · have hbr : (11 : ℝ) ≤ (v : ℝ) := by exact_mod_cast hbig
    have hb : ¬ (v : ℝ) / 255 ≤ 0.04045 := by
      rw [not_le, lt_div_iff₀ (by norm_num : (0:ℝ) < 255)]; linarith
    rw [srgbToLinear_of_gt hb]
    set a : ℝ := ((v : ℝ) / 255 + 0.055) / 1.055 with ha
    have ha0 : 0 ≤ a := by rw [ha]; positivity
    -- with v ≥ 11 the base is at least 1001/10761 ≈ 0.09302
    have halow : (1001 : ℝ) / 10761 ≤ a := by
      rw [ha, le_div_iff₀ (by norm_num : (0:ℝ) < 1.055),
        div_add' _ _ _ (by norm_num : (255:ℝ) ≠ 0),
        le_div_iff₀ (by norm_num : (0:ℝ) < 255)]
      norm_num
      linarith
    -- hence the decoded value stays above the encoder's linear-branch threshold
    have hlin_gt : (0.0031308 : ℝ) < a ^ (2.4 : ℝ) := by
      have hkey : ((1001 : ℝ) / 10761) ^ ((12 : ℝ) / 5) ≤ a ^ ((12 : ℝ) / 5) :=
        Real.rpow_le_rpow (by norm_num) halow (by norm_num)
      have hpow5 : (((1001 : ℝ) / 10761) ^ ((12 : ℝ) / 5)) ^ (5 : ℕ)
          = ((1001 : ℝ) / 10761) ^ (12 : ℕ) := by
        rw [← Real.rpow_natCast (((1001 : ℝ) / 10761) ^ ((12 : ℝ) / 5)) 5,
          ← Real.rpow_mul (by norm_num : (0:ℝ) ≤ (1001 : ℝ) / 10761)]
        rw [show ((12 : ℝ) / 5 * (5 : ℕ)) = ((12 : ℕ) : ℝ) by norm_num]
        rw [Real.rpow_natCast]
      have hbase : (0.0031308 : ℝ) < ((1001 : ℝ) / 10761) ^ ((12 : ℝ) / 5) := by
        by_contra hcon
        push_neg at hcon
        have hle := pow_le_pow_left₀ (Real.rpow_nonneg (by norm_num) _) hcon 5
        rw [hpow5] at hle
        norm_num at hle
      have h24 : a ^ (2.4 : ℝ) = a ^ ((12 : ℝ) / 5) := by norm_num
      rw [h24]
      exact lt_of_lt_of_le hbase hkey
    rw [linearToSrgb_of_gt (not_le.mpr hlin_gt)]
    have hroot : (a ^ (2.4 : ℝ)) ^ ((1 : ℝ) / 2.4) = a := by
      rw [← Real.rpow_mul ha0]
      norm_num
    rw [hroot]
    have hval : 1.055 * a - 0.055 = (v : ℝ) / 255 := by
      rw [ha]; field_simp; ring
    rw [hval, max_eq_right hv0, min_eq_right hv1]
    field_simp

/-- C9: for every integer byte value v in [0, 255], the sRGB round trip
`linearToSrgb(srgbToLinear(v))` returns v to within ±1 (in the idealized
real-valued model the round trip is in fact exact). -/
theorem srgb_roundTrip_within_one (v : ℕ) (h : v ≤ 255) :
    |linearToSrgb (srgbToLinear v) - v| ≤ 1 := by
  rw [linearToSrgb_srgbToLinear_exact v h]
  simp

theorem srgb_roundTrip_within_one_witness :
    (128 : ℕ) ≤ 255 ∧ |linearToSrgb (srgbToLinear (128 : ℕ)) - (128 : ℕ)| ≤ 1 :=
  ⟨by norm_num, srgb_roundTrip_within_one 128 (by norm_num)⟩

/-! ## NaN-aware lifts of the color functions

The recolor compositors can feed `NaN`/`Infinity` (from unguarded divisions)
into `labToLinearRgb` and `linearToSrgb`, so those two get `JSVal` versions.
They follow the source line by line using the `JSVal` operations; `linearToSrgb`
is lifted by cases, matching JS evaluation of its body on each special value:
* `NaN`: `NaN <= 0.0031308` is false, `Math.pow(NaN, 1/2.4) = NaN`, and the
  clamp of `NaN` is `NaN`, so the result is `NaN`;
* `Infinity`: the power branch gives `Infinity`, clamped to `1`, scaled to 255;
* `-Infinity`: the linear branch gives `-Infinity`, clamped to `0`. -/

open JSVal in
/-- `linearToSrgb` on an arbitrary JS number. -/
def linearToSrgbJ : JSVal → JSVal
  | num x => num (linearToSrgb x)
  | nan => nan
  | inf => num 255
  | ninf => num 0

open JSVal in
/-- `finv(t)` of the Lab inverse transform, on JS numbers. -/
def labFinvJ (t : JSVal) : JSVal :=
  let t3 := jmul (jmul t t) t
  if jlt (num 0.008856) t3 then t3 else jdiv (jsub t (num (16 / 116))) (num 7.787)

open JSVal in
/-- `xyzToLinearRgb`, on JS numbers. -/
def xyzToLinearRgbJ (x y z : JSVal) : JSVal × JSVal × JSVal :=
  (jadd (jadd (jmul x (num 3.2404542)) (jmul y (num (-1.5371385)))) (jmul z (num (-0.4985314))),
   jadd (jadd (jmul x (num (-0.9692660))) (jmul y (num 1.8760108))) (jmul z (num 0.0415560)),
   jadd (jadd (jmul x (num 0.0556434)) (jmul y (num (-0.2040259)))) (jmul z (num 1.0572252)))

open JSVal in
/-- `labToLinearRgb`, on JS numbers. -/
def labToLinearRgbJ (L a b : JSVal) : JSVal × JSVal × JSVal :=
  let fy := jdiv (jadd L (num 16)) (num 116)
  let fx := jadd fy (jdiv a (num 500))
  let fz := jsub fy (jdiv b (num 200))
  xyzToLinearRgbJ (jmul (num 0.95047) (labFinvJ fx)) (jmul (num 1.0) (labFinvJ fy))
    (jmul (num 1.08883) (labFinvJ fz))

theorem labFinvJ_num (t : ℝ) : labFinvJ (.num t) = .num (labFinv t) := by
  simp only [labFinvJ, labFinv, JSVal.jmul_num, JSVal.jsub_num, JSVal.jlt_num]
  by_cases h : (0.008856 : ℝ) < t * t * t
  · simp [h]
  · rw [if_neg h, if_neg h, JSVal.jdiv_num_of_ne _ (by norm_num : (7.787:ℝ) ≠ 0)]
    ring_nf

/-- On finite inputs the JS-number Lab inverse agrees with the real one. -/
theorem labToLinearRgbJ_num (L a b : ℝ) :
    labToLinearRgbJ (.num L) (.num a) (.num b) =
      ((.num (labToLinearRgb L a b).1 : JSVal), .num (labToLinearRgb L a b).2.1,
        .num (labToLinearRgb L a b).2.2) := by
  simp only [labToLinearRgbJ, labToLinearRgb, xyzToLinearRgbJ, xyzToLinearRgb,
    JSVal.jadd_num, JSVal.jsub_num,
    JSVal.jdiv_num_of_ne _ (by norm_num : (116:ℝ) ≠ 0),
    JSVal.jdiv_num_of_ne _ (by norm_num : (500:ℝ) ≠ 0),
    JSVal.jdiv_num_of_ne _ (by norm_num : (200:ℝ) ≠ 0)]
  rw [show (L + 16) / 116 + a / 500 = (L + 16) / 116 + a / 500 by rfl]
  rw [show (L + 16) / 116 + -(b / 200) = (L + 16) / 116 - b / 200 by ring]
  simp only [labFinvJ_num, JSVal.jmul_num, JSVal.jadd_num]

/-! ## Image buffers and the recolor compositors -/

/-- A byte store into a flat buffer. -/
def upd (d : ℕ → ℕ) (k v : ℕ) : ℕ → ℕ := fun j => if j = k then v else d j

@[simp] theorem upd_same (d : ℕ → ℕ) (k v : ℕ) : upd d k v k = v := by
  simp [upd]

theorem upd_ne (d : ℕ → ℕ) {j k : ℕ} (v : ℕ) (h : j ≠ k) : upd d k v j = d j := by
  simp [upd, h]

/-- Store the RGB triple `w` at pixel `i` of an RGBA buffer (bytes `i*4`,
`i*4+1`, `i*4+2`; alpha is untouched, as in both recolor loops). -/
def writeRGB (d : ℕ → ℕ) (i : ℕ) (w : ℕ × ℕ × ℕ) : ℕ → ℕ :=
  upd (upd (upd d (i * 4) w.1) (i * 4 + 1) w.2.1) (i * 4 + 2) w.2.2

theorem writeRGB_apply_of_ne (d : ℕ → ℕ) (i : ℕ) (w : ℕ × ℕ × ℕ) {j : ℕ}
    (h0 : j ≠ i * 4) (h1 : j ≠ i * 4 + 1) (h2 : j ≠ i * 4 + 2) :
    writeRGB d i w j = d j := by
  rw [writeRGB, upd_ne _ _ h2, upd_ne _ _ h1, upd_ne _ _ h0]

theorem writeRGB_apply_self (d : ℕ → ℕ) (i : ℕ) (w : ℕ × ℕ × ℕ) :
    writeRGB d i w (i * 4) = w.1 ∧ writeRGB d i w (i * 4 + 1) = w.2.1 ∧
      writeRGB d i w (i * 4 + 2) = w.2.2 := by
  refine ⟨?_, ?_, ?_⟩
  · rw [writeRGB, upd_ne _ _ (by omega), upd_ne _ _ (by omega), upd_same]
  · rw [writeRGB, upd_ne _ _ (by omega), upd_same]
  · rw [writeRGB, upd_same]

/-- A pixel not written by any index of the list keeps all its bytes. -/
theorem foldl_writeRGB_apply_of_forall_ne (f : ℕ → ℕ × ℕ × ℕ) (l : List ℕ)
    (d : ℕ → ℕ) (j : ℕ)
    (hj : ∀ i ∈ l, j ≠ i * 4 ∧ j ≠ i * 4 + 1 ∧ j ≠ i * 4 + 2) :
    l.foldl (fun d i => writeRGB d i (f i)) d j = d j := by
  induction l generalizing d with
  | nil => rfl
  | cons a t ih =>
      have ha := hj a (List.mem_cons_self a t)
      rw [List.foldl_cons, ih _ fun i hi => hj i (List.mem_cons_of_mem a hi),
        writeRGB_apply_of_ne _ _ _ ha.1 ha.2.1 ha.2.2]

/-- Every write stores a value depending only on the pixel index, so a pixel
of the mask ends with its own written triple no matter the write order. -/
theorem foldl_writeRGB_apply_of_mem (f : ℕ → ℕ × ℕ × ℕ) (l : List ℕ)
    (d : ℕ → ℕ) (i : ℕ) (hi : i ∈ l) :
    l.foldl (fun d i => writeRGB d i (f i)) d (i * 4) = (f i).1 ∧
    l.foldl (fun d i => writeRGB d i (f i)) d (i * 4 + 1) = (f i).2.1 ∧
    l.foldl (fun d i => writeRGB d i (f i)) d (i * 4 + 2) = (f i).2.2 := by
  induction l generalizing d with
  | nil => cases hi
  | cons a t ih =>
      by_cases hit : i ∈ t
      · exact ih _ hit
      · have hia : i = a := by
          rcases List.mem_cons.mp hi with h | h
          · exact h
          · exact absurd h hit
        subst hia
        have hne : ∀ i' ∈ t, i * 4 ≠ i' * 4 ∧ i * 4 ≠ i' * 4 + 1 ∧ i * 4 ≠ i' * 4 + 2 := by
          intro i' hi'
          have : i ≠ i' := fun h => hit (h ▸ hi')
          omega
        have hne1 : ∀ i' ∈ t, i * 4 + 1 ≠ i' * 4 ∧ i * 4 + 1 ≠ i' * 4 + 1 ∧
            i * 4 + 1 ≠ i' * 4 + 2 := by
          intro i' hi'
          have : i ≠ i' := fun h => hit (h ▸ hi')
          omega
        have hne2 : ∀ i' ∈ t, i * 4 + 2 ≠ i' * 4 ∧ i * 4 + 2 ≠ i' * 4 + 1 ∧
            i * 4 + 2 ≠ i' * 4 + 2 := by
          intro i' hi'
          have : i ≠ i' := fun h => hit (h ▸ hi')
          omega
        rw [List.foldl_cons,
          foldl_writeRGB_apply_of_forall_ne f t _ _ hne,
          foldl_writeRGB_apply_of_forall_ne f t _ _ hne1,
          foldl_writeRGB_apply_of_forall_ne f t _ _ hne2]
        exact writeRGB_apply_self _ _ _

/-- The per-pixel Retinex buffers (src/lib/imageUtils.ts `RetinexData`). -/
structure RetinexData where
  L : ℕ → ℝ
  A : ℕ → ℝ
  B : ℕ → ℝ
  gray : ℕ → ℝ
  shade : ℕ → ℝ

open JSVal in
/-- The RGB triple the Retinex recolor loop stores at masked pixel `i`;
it reads only the precomputed buffers, the mask statistics and the target
color - never the image being written. -/
def retinexWrittenRGB (pre : RetinexData) (colorHex : HexColor) (indices : List ℕ)
    (i : ℕ) : ℕ × ℕ × ℕ :=
  let count : ℝ := indices.length
  let meanL := (indices.map pre.L).sum / count
  let meanA := (indices.map pre.A).sum / count
  let meanB := (indices.map pre.B).sum / count
  let meanGray := (indices.map pre.gray).sum / count
  let lab := hexToLab colorHex
  let chromaScale := jmin (jmax (jdiv (num (pre.gray i)) (num meanGray)) (num 0.4)) (num 1.0)
  let a := jadd (num lab.2.1) (jmul (num (pre.A i - meanA)) chromaScale)
  let b := jadd (num lab.2.2) (jmul (num (pre.B i - meanB)) chromaScale)
  let rawScale : ℝ := if 0 < meanL then lab.1 / meanL else 1
  let lightnessScale := min rawScale 5
  let Lval := min (max (pre.L i * lightnessScale) 0) 100
  let rgb := labToLinearRgbJ (num Lval) a b
  (toUint8Clamp (linearToSrgbJ (jmul rgb.1 (num (pre.shade i)))),
   toUint8Clamp (linearToSrgbJ (jmul rgb.2.1 (num (pre.shade i)))),
   toUint8Clamp (linearToSrgbJ (jmul rgb.2.2 (num (pre.shade i)))))

/-- `applyRetinexRecolor(baseData, indices, colorHex, pre)` of
src/lib/imageUtils.ts, as a function on the byte buffer.  The early return on
an empty mask (`if (count === 0) return`) is the leading `if`. -/
def applyRetinexRecolor (data : ℕ → ℕ) (indices : List ℕ) (colorHex : HexColor)
    (pre : RetinexData) : ℕ → ℕ :=
  if indices.length = 0 then data
  else indices.foldl (fun d i => writeRGB d i (retinexWrittenRGB pre colorHex indices i)) data

/-- The learned-decomposition buffers (`{R, S, E}` of
src/lib/intrinsic/color-transfer.ts). -/
structure Decomposition where
  R : ℕ → ℝ
  S : ℕ → ℝ
  E : ℕ → ℝ

open JSVal in
/-- The per-channel gains of `applyReflectanceColor`: target linear color over
mean masked reflectance, with no zero guard (`mean[c] /= indices.length` and
`gain[c] = t_c / mean[c]` are JS float divisions). -/
def reflectGain (dec : Decomposition) (indices : List ℕ) (target : HexColor) :
    JSVal × JSVal × JSVal :=
  let t := hexToLinearRgb target
  let m0 := jdiv (num ((indices.map fun idx => dec.R (idx * 3)).sum)) (num indices.length)
  let m1 := jdiv (num ((indices.map fun idx => dec.R (idx * 3 + 1)).sum)) (num indices.length)
  let m2 := jdiv (num ((indices.map fun idx => dec.R (idx * 3 + 2)).sum)) (num indices.length)
  (jdiv (num t.1) m0, jdiv (num t.2.1) m1, jdiv (num t.2.2) m2)

open JSVal in
/-- The RGB triple the reflectance recolor loop stores at masked pixel `idx`. -/
def reflectWrittenRGB (dec : Decomposition) (indices : List ℕ) (target : HexColor)
    (idx : ℕ) : ℕ × ℕ × ℕ :=
  let gain := reflectGain dec indices target
  let s := dec.S idx
  let sp := dec.E (idx * 3)
  let r := jmin (num 1) (jmax (num 0) (jmul (num (dec.R (idx * 3))) gain.1))
  let g := jmin (num 1) (jmax (num 0) (jmul (num (dec.R (idx * 3 + 1))) gain.2.1))
  let b := jmin (num 1) (jmax (num 0) (jmul (num (dec.R (idx * 3 + 2))) gain.2.2))
  (toUint8Clamp (linearToSrgbJ (jadd (jmul r (num s)) (num sp))),
   toUint8Clamp (linearToSrgbJ (jadd (jmul g (num s)) (num sp))),
   toUint8Clamp (linearToSrgbJ (jadd (jmul b (num s)) (num sp))))

/-- `applyReflectanceColor(image, decomposition, indices, hex)` of
src/lib/intrinsic/color-transfer.ts. -/
def applyReflectanceColor (image : ℕ → ℕ) (dec : Decomposition) (indices : List ℕ)
    (target : HexColor) : ℕ → ℕ :=
  indices.foldl (fun d idx => writeRGB d idx (reflectWrittenRGB dec indices target idx)) image

/-! ## Spec-side guarded comparators for claim C2

Modelled from the spec: "division by zero mean values ... must be guarded with
explicit fallback (treat scale factor as 1) rather than propagating NaN".
These variants are the recolor steps with every division by a masked-mean
value given the scale-factor-1 fallback; they work entirely in the reals, so
by construction no NaN-derived value can reach the buffer. -/

/-- Modelled from the spec: the Retinex recolor written value with the
chroma-scale division guarded (the lightness-scale division already carries
the fallback in the source). -/
def retinexWrittenRGBGuarded (pre : RetinexData) (colorHex : HexColor)
    (indices : List ℕ) (i : ℕ) : ℕ × ℕ × ℕ :=
  let count : ℝ := indices.length
  let meanL := (indices.map pre.L).sum / count
  let meanA := (indices.map pre.A).sum / count
  let meanB := (indices.map pre.B).sum / count
  let meanGray := (indices.map pre.gray).sum / count
  let lab := hexToLab colorHex
  let chromaScale : ℝ := if meanGray = 0 then 1 else min (max (pre.gray i / meanGray) 0.4) 1.0
  let a := lab.2.1 + (pre.A i - meanA) * chromaScale
  let b := lab.2.2 + (pre.B i - meanB) * chromaScale
  let rawScale : ℝ := if 0 < meanL then lab.1 / meanL else 1
  let lightnessScale := min rawScale 5
  let Lval := min (max (pre.L i * lightnessScale) 0) 100
  let rgb := labToLinearRgb Lval a b
  (JSVal.toUint8Clamp (.num (linearToSrgb (rgb.1 * pre.shade i))),
   JSVal.toUint8Clamp (.num (linearToSrgb (rgb.2.1 * pre.shade i))),
   JSVal.toUint8Clamp (.num (linearToSrgb (rgb.2.2 * pre.shade i))))

/-- Modelled from the spec: `applyRetinexRecolor` with guarded divisions. -/
def applyRetinexRecolorGuarded (data : ℕ → ℕ) (indices : List ℕ) (colorHex : HexColor)
    (pre : RetinexData) : ℕ → ℕ :=
  if indices.length = 0 then data
  else indices.foldl
    (fun d i => writeRGB d i (retinexWrittenRGBGuarded pre colorHex indices i)) data

/-- Modelled from the spec: the reflectance recolor written value with every
per-channel gain `t_c / mean_c` replaced by 1 when `mean_c = 0`. -/
def reflectWrittenRGBGuarded (dec : Decomposition) (indices : List ℕ)
    (target : HexColor) (idx : ℕ) : ℕ × ℕ × ℕ :=
  let t := hexToLinearRgb target
  let count : ℝ := indices.length
  let m0 := (indices.map fun idx => dec.R (idx * 3)).sum / count
  let m1 := (indices.map fun idx => dec.R (idx * 3 + 1)).sum / count
  let m2 := (indices.map fun idx => dec.R (idx * 3 + 2)).sum / count
  let g0 : ℝ := if m0 = 0 then 1 else t.1 / m0
  let g1 : ℝ := if m1 = 0 then 1 else t.2.1 / m1
  let g2 : ℝ := if m2 = 0 then 1 else t.2.2 / m2
  let s := dec.S idx
  let sp := dec.E (idx * 3)
  let r := min 1 (max 0 (dec.R (idx * 3) * g0))
  let g := min 1 (max 0 (dec.R (idx * 3 + 1) * g1))
  let b := min 1 (max 0 (dec.R (idx * 3 + 2) * g2))
  (JSVal.toUint8Clamp (.num (linearToSrgb (r * s + sp))),
   JSVal.toUint8Clamp (.num (linearToSrgb (g * s + sp))),
   JSVal.toUint8Clamp (.num (linearToSrgb (b * s + sp))))

/-- Modelled from the spec: `applyReflectanceColor` with guarded gains. -/
def applyReflectanceColorGuarded (image : ℕ → ℕ) (dec : Decomposition)
    (indices : List ℕ) (target : HexColor) : ℕ → ℕ :=
  indices.foldl
    (fun d idx => writeRGB d idx (reflectWrittenRGBGuarded dec indices target idx)) image

/-! ## Claims C1 and C3: frame property and empty-mask no-op -/

/-- C1: for both recolor operations, every target color and every pixel-index
set, every byte of the working image whose pixel (flat index `j / 4`) is not
in the index set is unchanged by the call - in particular all four RGBA bytes
of every pixel outside the mask are bit-for-bit identical. -/
theorem recolor_outside_mask_unchanged (data : ℕ → ℕ) (indices : List ℕ)
    (colorHex : HexColor) (pre : RetinexData) (dec : Decomposition) (j : ℕ)
    (hj : j / 4 ∉ indices) :
    applyRetinexRecolor data indices colorHex pre j = data j ∧
    applyReflectanceColor data dec indices colorHex j = data j := by
  have hne : ∀ i ∈ indices, j ≠ i * 4 ∧ j ≠ i * 4 + 1 ∧ j ≠ i * 4 + 2 := by
    intro i hi
    have : j / 4 ≠ i := fun h => hj (h ▸ hi)
    omega
  constructor
  · rw [applyRetinexRecolor]
    by_cases h0 : indices.length = 0
    · rw [if_pos h0]
    · rw [if_neg h0, foldl_writeRGB_apply_of_forall_ne _ _ _ _ hne]
  · rw [applyReflectanceColor, foldl_writeRGB_apply_of_forall_ne _ _ _ _ hne]

theorem recolor_outside_mask_unchanged_witness :
    ((5 : ℕ) / 4 ∉ [0, 2]) ∧
    (applyRetinexRecolor (fun k => k + 3) [0, 2] ⟨10, 20, 30⟩
        ⟨fun _ => 1, fun _ => 0, fun _ => 0, fun _ => 1, fun _ => 1⟩ 5 = 5 + 3 ∧
      applyReflectanceColor (fun k => k + 3) ⟨fun _ => 0, fun _ => 1, fun _ => 1⟩
        [0, 2] ⟨10, 20, 30⟩ 5 = 5 + 3) :=
  ⟨by decide,
    recolor_outside_mask_unchanged (fun k => k + 3) [0, 2] ⟨10, 20, 30⟩
      ⟨fun _ => 1, fun _ => 0, fun _ => 0, fun _ => 1, fun _ => 1⟩
      ⟨fun _ => 0, fun _ => 1, fun _ => 1⟩ 5 (by decide)⟩

/-- C3: calling either recolor step with an empty index set is a safe no-op:
the (total, non-throwing) functions return the buffer unchanged.  The Retinex
path returns through its explicit `count === 0` early exit; the reflectance
path simply performs no loop iteration. -/
theorem recolor_empty_mask_noop (data : ℕ → ℕ) (colorHex : HexColor)
    (pre : RetinexData) (dec : Decomposition) :
    applyRetinexRecolor data [] colorHex pre = data ∧
    applyReflectanceColor data dec [] colorHex = data :=
  ⟨by rw [applyRetinexRecolor]; rfl, rfl⟩

/-! ## Claim C2: which divisions by mask means are actually guarded -/

theorem srgbToLinear_byte255 : srgbToLinear (255 : ℝ) = 1 := by
  rw [srgbToLinear]
  norm_num

theorem linearToSrgb_one : linearToSrgb 1 = 255 := by
  rw [linearToSrgb]
  norm_num [Real.one_rpow]

/-- The written value of the source Retinex recolor agrees with the guarded
comparator whenever the masked mean gray-luminance is nonzero. -/
theorem retinexWrittenRGB_eq_guarded (pre : RetinexData) (colorHex : HexColor)
    (indices : List ℕ) (i : ℕ)
    (hg : (indices.map pre.gray).sum / (indices.length : ℝ) ≠ 0) :
    retinexWrittenRGB pre colorHex indices i =
      retinexWrittenRGBGuarded pre colorHex indices i := by
  rw [retinexWrittenRGB, retinexWrittenRGBGuarded]
  simp only [JSVal.jdiv_num_of_ne _ hg, JSVal.jmax_num, JSVal.jmin_num,
    JSVal.jmul_num, JSVal.jadd_num, labToLinearRgbJ_num, if_neg hg]
  rfl

/-- C2 (amended): in `applyRetinexRecolor` the division by the masked mean
lightness is guarded with the scale-factor-1 fallback (`meanL > 0 ? Lt /
meanL : 1`), and as long as the masked mean gray-luminance is nonzero the
whole call coincides with the fully guarded real-valued comparator - so no
NaN-derived value reaches the buffer, including when the mean lightness is
zero.  (The chroma-scale division by the mean gray-luminance and the
reflectance path's per-channel gains carry no such guard; see the
counterexample.) -/
theorem applyRetinexRecolor_eq_guarded (data : ℕ → ℕ) (indices : List ℕ)
    (colorHex : HexColor) (pre : RetinexData)
    (hg : (indices.map pre.gray).sum / (indices.length : ℝ) ≠ 0) :
    applyRetinexRecolor data indices colorHex pre =
      applyRetinexRecolorGuarded data indices colorHex pre := by
  rw [applyRetinexRecolor, applyRetinexRecolorGuarded]
  have hstep : (fun (d : ℕ → ℕ) i => writeRGB d i (retinexWrittenRGB pre colorHex indices i))
      = fun (d : ℕ → ℕ) i => writeRGB d i (retinexWrittenRGBGuarded pre colorHex indices i) := by
    funext d i
    rw [retinexWrittenRGB_eq_guarded pre colorHex indices i hg]
  rw [hstep]

theorem applyRetinexRecolor_eq_guarded_witness :
    ((([0] : List ℕ).map (fun _ => (1 : ℝ))).sum / (([0] : List ℕ).length : ℝ) ≠ 0) ∧
    applyRetinexRecolor (fun k => k) [0] ⟨10, 20, 30⟩
        ⟨fun _ => 0, fun _ => 0, fun _ => 0, fun _ => 1, fun _ => 1⟩ =
      applyRetinexRecolorGuarded (fun k => k) [0] ⟨10, 20, 30⟩
        ⟨fun _ => 0, fun _ => 0, fun _ => 0, fun _ => 1, fun _ => 1⟩ :=
  ⟨by norm_num,
    applyRetinexRecolor_eq_guarded (fun k => k) [0] ⟨10, 20, 30⟩
      ⟨fun _ => 0, fun _ => 0, fun _ => 0, fun _ => 1, fun _ => 1⟩ (by norm_num)⟩

/-- C2 (counterexample): a one-pixel mask whose reflectance is identically
zero has zero mean reflectance in every channel; `applyReflectanceColor`
divides by that zero mean with no fallback, the resulting NaN is clamped to
byte 0 by the `Uint8ClampedArray` store, and the output differs from the
spec-mandated scale-factor-1 fallback (which would store byte 255 here). -/
theorem applyReflectanceColor_zero_mean_cex :
    applyReflectanceColor (fun _ => 7) ⟨fun _ => 0, fun _ => 1, fun _ => 1⟩
        [0] ⟨255, 0, 0⟩ 0 = 0 ∧
    applyReflectanceColorGuarded (fun _ => 7) ⟨fun _ => 0, fun _ => 1, fun _ => 1⟩
        [0] ⟨255, 0, 0⟩ 0 = 255 ∧
    applyReflectanceColor (fun _ => 7) ⟨fun _ => 0, fun _ => 1, fun _ => 1⟩
        [0] ⟨255, 0, 0⟩ 0 ≠
      applyReflectanceColorGuarded (fun _ => 7) ⟨fun _ => 0, fun _ => 1, fun _ => 1⟩
        [0] ⟨255, 0, 0⟩ 0 := by
  have hcode : applyReflectanceColor (fun _ => 7) ⟨fun _ => 0, fun _ => 1, fun _ => 1⟩
      [0] ⟨255, 0, 0⟩ 0 = 0 := by
    rw [applyReflectanceColor, List.foldl_cons, List.foldl_nil]
    rw [show (0 : ℕ) = 0 * 4 by rfl, (writeRGB_apply_self _ _ _).1]
    rw [reflectWrittenRGB, reflectGain]
    norm_num [hexToLinearRgb, srgbToLinear_byte255,
      JSVal.jdiv, JSVal.jmul, JSVal.jmax, JSVal.jmin, JSVal.jadd,
      linearToSrgbJ, JSVal.toUint8Clamp]
  have hguard : applyReflectanceColorGuarded (fun _ => 7)
      ⟨fun _ => 0, fun _ => 1, fun _ => 1⟩ [0] ⟨255, 0, 0⟩ 0 = 255 := by
    rw [applyReflectanceColorGuarded, List.foldl_cons, List.foldl_nil]
    rw [show (0 : ℕ) = 0 * 4 by rfl, (writeRGB_apply_self _ _ _).1]
    rw [reflectWrittenRGBGuarded]
    norm_num [linearToSrgb_one, JSVal.toUint8Clamp]
  exact ⟨hcode, hguard, by rw [hcode, hguard]; norm_num⟩

/-! ## `maskToIndices` (claim C10) -/

/-- `maskToIndices(mask)` of src/lib/imageUtils.ts: scan rows then columns
and collect the flat index `y*width + x` of every pixel whose red byte
`data[(y*width + x) * 4]` is positive. -/
def maskToIndices (width height : ℕ) (data : ℕ → ℕ) : List ℕ :=
  (List.range height).flatMap fun y =>
    (List.range width).filterMap fun x =>
      if 0 < data ((y * width + x) * 4) then some (y * width + x) else none

theorem filterMap_if_eq_filter_map (l : List ℕ) (f : ℕ → ℕ) (P : ℕ → Prop)
    [DecidablePred P] :
    (l.filterMap fun x => if P (f x) then some (f x) else none) =
      (l.map f).filter fun i => decide (P i) := by
  induction l with
  | nil => rfl
  | cons a t ih =>
      rw [List.filterMap_cons, List.map_cons, List.filter_cons]
      by_cases hp : P (f a)
      · rw [if_pos hp, ih, if_pos (by simpa using hp)]
      · rw [if_neg hp, ih, if_neg (by simpa using hp)]

theorem maskToIndices_eq_filter (width height : ℕ) (data : ℕ → ℕ) :
    maskToIndices width height data =
      (List.range (height * width)).filter fun i => 0 < data (i * 4) := by
  rw [maskToIndices]
  induction height with
  | zero => simp
  | succ h ih =>
      rw [List.range_succ, List.flatMap_append, ih, Nat.succ_mul, List.range_add,
        List.filter_append]
      congr 1
      rw [List.flatMap_singleton,
        filterMap_if_eq_filter_map (List.range width) (fun x => h * width + x)
          (fun i => 0 < data (i * 4))]

/-- C10: `maskToIndices` returns the flat indices `y*width + x` of exactly the
pixels whose red byte is strictly positive (the other channels never being
read), in strictly increasing row-major order; hence the list is
duplicate-free and every index is below `width*height`. -/
theorem maskToIndices_spec (width height : ℕ) (data : ℕ → ℕ) :
    (∀ i, i ∈ maskToIndices width height data ↔ i < width * height ∧ 0 < data (i * 4)) ∧
    (maskToIndices width height data).Pairwise (· < ·) ∧
    (maskToIndices width height data).Nodup := by
  have hpair : (maskToIndices width height data).Pairwise (· < ·) := by
    rw [maskToIndices_eq_filter]
    exact (List.pairwise_lt_range _).sublist (List.filter_sublist _)
  refine ⟨fun i => ?_, hpair, hpair.imp ne_of_lt⟩
  rw [maskToIndices_eq_filter, List.mem_filter, List.mem_range, Nat.mul_comm height width]
  simp

/-! ## `boxBlurFloat` (claim C8)

The source operates on `Float32Array`s with only field operations (additions
for the summed-area table, one division per pixel), so it is idealized over
`ℚ`. -/

/-- The running `rowSum` of the integral-image construction: its value after
the inner loop has consumed the first `x` entries of source row `y`. -/
def rowSumAcc (src : ℕ → ℚ) (w y : ℕ) : ℕ → ℚ
  | 0 => 0
  | x + 1 => rowSumAcc src w y x + src (y * w + x)

/-- The summed-area table of `boxBlurFloat`: zero on the top row and left
column, and `integral[y][x] = integral[y-1][x] + rowSum` elsewhere, exactly
as filled by the double loop. -/
def integralTable (src : ℕ → ℚ) (w : ℕ) : ℕ → ℕ → ℚ
  | 0, _ => 0
  | _ + 1, 0 => 0
  | y + 1, x + 1 => integralTable src w y (x + 1) + rowSumAcc src w y (x + 1)

/-- The per-pixel body of the second loop of `boxBlurFloat`: clamp the window
(`Math.max(0, ·)` is ℕ-subtraction here), take the four-corner combination of
the table and divide by the clamped window's area. -/
def boxBlurPixel (src : ℕ → ℚ) (width height radius y x : ℕ) : ℚ :=
  let y1 := y - radius
  let y2 := min (height - 1) (y + radius)
  let x1 := x - radius
  let x2 := min (width - 1) (x + radius)
  let sum := integralTable src width (y2 + 1) (x2 + 1) - integralTable src width y1 (x2 + 1)
    - integralTable src width (y2 + 1) x1 + integralTable src width y1 x1
  let area := (x2 - x1 + 1) * (y2 - y1 + 1)
  sum / (area : ℚ)

/-- `boxBlurFloat(src, width, height, radius)` of src/lib/color.ts: the
destination buffer is zero-initialized and the loops fill every flat index
`y*width + x` with `y < height`, `x < width`. -/
def boxBlurFloat (src : ℕ → ℚ) (width height radius : ℕ) : ℕ → ℚ := fun k =>
  if k < width * height then boxBlurPixel src width height radius (k / width) (k % width)
  else 0

theorem rowSumAcc_eq (src : ℕ → ℚ) (w y x : ℕ) :
    rowSumAcc src w y x = ∑ t ∈ Finset.range x, src (y * w + t) := by
  induction x with
  | zero => rfl
  | succ x ih => rw [rowSumAcc, ih, Finset.sum_range_succ]

theorem integralTable_eq (src : ℕ → ℚ) (w y x : ℕ) :
    integralTable src w y x = ∑ r ∈ Finset.range y, ∑ t ∈ Finset.range x, src (r * w + t) := by
  induction y with
  | zero => rw [integralTable, Finset.range_zero, Finset.sum_empty]
  | succ y ih =>
      cases x with
      | zero =>
          rw [integralTable]
          simp
      | succ x =>
          rw [integralTable, ih, rowSumAcc_eq]
          exact (Finset.sum_range_succ (fun r => ∑ t ∈ Finset.range (x + 1),
            src (r * w + t)) y).symm

/-- C8: at every in-range pixel, `boxBlurFloat` returns the plain average of
the source over the window clamped to the image bounds, the divisor being the
clamped window's area; consequently a constant buffer blurs to that same
constant at every pixel, borders included. -/
theorem boxBlurFloat_spec (src : ℕ → ℚ) (width height radius : ℕ) :
    (∀ y x, y < height → x < width →
      boxBlurFloat src width height radius (y * width + x) =
        (∑ j ∈ Finset.Ico (y - radius) (min (height - 1) (y + radius) + 1),
          ∑ i ∈ Finset.Ico (x - radius) (min (width - 1) (x + radius) + 1),
            src (j * width + i)) /
        (((min (width - 1) (x + radius) + 1 - (x - radius)) *
          (min (height - 1) (y + radius) + 1 - (y - radius)) : ℕ) : ℚ)) ∧
    (∀ c : ℚ, (∀ k, k < width * height → src k = c) → ∀ y x, y < height → x < width →
      boxBlurFloat src width height radius (y * width + x) = c) := by
  have hw0 : ∀ y x, y < height → x < width → y * width + x < width * height := by
    intro y x hy hx
    calc y * width + x < y * width + width := by omega
      _ = (y + 1) * width := by ring
      _ ≤ height * width := Nat.mul_le_mul_right width (by omega)
      _ = width * height := Nat.mul_comm height width
  have hdiv : ∀ y x, y < height → x < width → (y * width + x) / width = y := by
    intro y x _ hx
    rw [Nat.mul_comm y width, Nat.mul_add_div (by omega : 0 < width),
      Nat.div_eq_of_lt hx]
    omega
  have hmod : ∀ y x, y < height → x < width → (y * width + x) % width = x := by
    intro y x _ hx
    rw [Nat.mul_comm y width, Nat.mul_add_mod, Nat.mod_eq_of_lt hx]
  have hmain : ∀ y x, y < height → x < width →
      boxBlurFloat src width height radius (y * width + x) =
        (∑ j ∈ Finset.Ico (y - radius) (min (height - 1) (y + radius) + 1),
          ∑ i ∈ Finset.Ico (x - radius) (min (width - 1) (x + radius) + 1),
            src (j * width + i)) /
        (((min (width - 1) (x + radius) + 1 - (x - radius)) *
          (min (height - 1) (y + radius) + 1 - (y - radius)) : ℕ) : ℚ) := by
    intro y x hy hx
    rw [boxBlurFloat, if_pos (hw0 y x hy hx), hdiv y x hy hx, hmod y x hy hx, boxBlurPixel]
    have hy12 : y - radius ≤ min (height - 1) (y + radius) + 1 := by omega
    have hx12 : x - radius ≤ min (width - 1) (x + radius) + 1 := by omega
    have hsum : integralTable src width (min (height - 1) (y + radius) + 1)
          (min (width - 1) (x + radius) + 1) -
        integralTable src width (y - radius) (min (width - 1) (x + radius) + 1) -
        integralTable src width (min (height - 1) (y + radius) + 1) (x - radius) +
        integralTable src width (y - radius) (x - radius) =
        ∑ j ∈ Finset.Ico (y - radius) (min (height - 1) (y + radius) + 1),
          ∑ i ∈ Finset.Ico (x - radius) (min (width - 1) (x + radius) + 1),
            src (j * width + i) := by
      simp only [integralTable_eq]
      rw [Finset.sum_Ico_eq_sub _ hy12]
      have hinner : ∀ j, ∑ i ∈ Finset.Ico (x - radius) (min (width - 1) (x + radius) + 1),
          src (j * width + i) =
          (∑ i ∈ Finset.range (min (width - 1) (x + radius) + 1), src (j * width + i)) -
          ∑ i ∈ Finset.range (x - radius), src (j * width + i) := by
        intro j
        rw [Finset.sum_Ico_eq_sub _ hx12]
      simp only [hinner, Finset.sum_sub_distrib]
      ring
    rw [hsum]
    have hA : min (width - 1) (x + radius) - (x - radius) + 1 =
        min (width - 1) (x + radius) + 1 - (x - radius) := by omega
    have hB : min (height - 1) (y + radius) - (y - radius) + 1 =
        min (height - 1) (y + radius) + 1 - (y - radius) := by omega
    rw [hA, hB]
  refine ⟨hmain, fun c hc y x hy hx => ?_⟩
  rw [hmain y x hy hx]
  have hval : ∀ j ∈ Finset.Ico (y - radius) (min (height - 1) (y + radius) + 1),
      ∀ i ∈ Finset.Ico (x - radius) (min (width - 1) (x + radius) + 1),
      src (j * width + i) = c := by
    intro j hj i hi
    rw [Finset.mem_Ico] at hj hi
    exact hc _ (hw0 j i (by omega) (by omega))
  rw [Finset.sum_congr rfl fun j hj => Finset.sum_congr rfl fun i hi => hval j hj i hi]
  rw [Finset.sum_const, Finset.sum_const, Nat.card_Ico, Nat.card_Ico, nsmul_eq_mul,
    nsmul_eq_mul]
  have harea : ((min (width - 1) (x + radius) + 1 - (x - radius)) *
      (min (height - 1) (y + radius) + 1 - (y - radius)) : ℕ) ≠ 0 := by
    apply Nat.mul_ne_zero <;> omega
  rw [div_eq_iff (by exact_mod_cast harea)]
  push_cast
  ring

theorem boxBlurFloat_spec_witness :
    ((2 : ℕ) < 3 ∧ (1 : ℕ) < 4) ∧
    boxBlurFloat (fun _ => (5 : ℚ)) 4 3 2 (2 * 4 + 1) = 5 :=
  ⟨⟨by norm_num, by norm_num⟩,
    (boxBlurFloat_spec (fun _ => (5 : ℚ)) 4 3 2).2 5 (fun _ _ => rfl) 2 1
      (by norm_num) (by norm_num)⟩

/-! ## `filterLargestComponent` (claim C7)

The SAM engine's denoising pass: flood-fill the 8-connected foreground
components of a binary mask (foreground = red byte > 0) and keep only a
largest one. -/

/-- `getNeighbors(idx)`: the in-bounds 8-neighbor indices of `idx`, with the
`dy` loop outside and the `dx` loop inside, skipping `(0, 0)`. -/
def getNeighbors (w h i : ℕ) : List ℕ :=
  let x : ℤ := (i : ℤ) % (w : ℤ)
  let y : ℤ := (i : ℤ) / (w : ℤ)
  ([-1, 0, 1] : List ℤ).flatMap fun dy =>
    ([-1, 0, 1] : List ℤ).filterMap fun dx =>
      if dx = 0 ∧ dy = 0 then none
      else
        let nx := x + dx
        let ny := y + dy
        if 0 ≤ nx ∧ nx < (w : ℤ) ∧ 0 ≤ ny ∧ ny < (h : ℤ) then some (ny * w + nx).toNat
        else none

/-- One step of 8-connectivity into a foreground pixel. -/
def compStep (w h : ℕ) (data : ℕ → ℕ) (x y : ℕ) : Prop :=
  0 < data (y * 4) ∧ y ∈ getNeighbors w h x

/-- The pixels connected to `i` through foreground 8-neighbor steps: the
connected component of a foreground `i`. -/
def compSet (w h : ℕ) (data : ℕ → ℕ) (i : ℕ) : Set ℕ :=
  {j | Relation.ReflTransGen (compStep w h data) i j}

/-- Membership in `getNeighbors` is exactly 8-adjacency between distinct
in-bounds cells: row and column each differ by at most one. -/
theorem mem_getNeighbors_iff {w h i : ℕ} (hi : i < w * h) (j : ℕ) :
    j ∈ getNeighbors w h i ↔
      j < w * h ∧ j ≠ i ∧
        (j % w ≤ i % w + 1 ∧ i % w ≤ j % w + 1) ∧
        (j / w ≤ i / w + 1 ∧ i / w ≤ j / w + 1) := by
  have hw : 0 < w := by
    rcases Nat.eq_zero_or_pos w with hw0 | hw0
    · subst hw0; omega
    · exact hw0
  have hh : 0 < h := by
    rcases Nat.eq_zero_or_pos h with hh0 | hh0
    · subst hh0; omega
    · exact hh0
  have hiw : w * (i / w) + i % w = i := Nat.div_add_mod i w
  have himod : i % w < w := Nat.mod_lt i hw
  have hidiv : i / w < h := Nat.div_lt_of_lt_mul (by omega)
  have hxmod : ((i : ℤ) % (w : ℤ)) = ((i % w : ℕ) : ℤ) := by push_cast; rfl
  have hxdiv : ((i : ℤ) / (w : ℤ)) = ((i / w : ℕ) : ℤ) := by push_cast; rfl
  rw [getNeighbors]
  simp only [List.mem_flatMap, List.mem_filterMap, List.mem_cons, List.mem_singleton,
    List.not_mem_nil, or_false]
  constructor
  · rintro ⟨dy, hdy, dx, hdx, hout⟩
    by_cases hzz : dx = 0 ∧ dy = 0
    · rw [if_pos hzz] at hout
      cases hout
    · rw [if_neg hzz] at hout
      by_cases hb : 0 ≤ (i : ℤ) % w + dx ∧ (i : ℤ) % w + dx < (w : ℤ) ∧
          0 ≤ (i : ℤ) / w + dy ∧ (i : ℤ) / w + dy < (h : ℤ)
      · rw [if_pos hb] at hout
        obtain ⟨hb1, hb2, hb3, hb4⟩ := hb
        rw [hxmod] at hb1 hb2
        rw [hxdiv] at hb3 hb4
        injection hout with hout
        set nx := (((i % w : ℕ) : ℤ) + dx).toNat with hnx
        set ny := (((i / w : ℕ) : ℤ) + dy).toNat with hny
        have hnxw : nx < w := by omega
        have hnyh : ny < h := by omega
        have hexpr : (((i : ℤ) / w + dy) * w + ((i : ℤ) % w + dx)) = ((ny * w + nx : ℕ) : ℤ) := by
          rw [hxmod, hxdiv]
          have e1 : ((i / w : ℕ) : ℤ) + dy = (ny : ℤ) := by omega
          have e2 : ((i % w : ℕ) : ℤ) + dx = (nx : ℤ) := by omega
          rw [e1, e2]
          push_cast
          ring
        rw [hexpr] at hout
        have hjval : j = ny * w + nx := by omega
        have hmod2 : j % w = nx := by
          rw [hjval, Nat.mul_comm ny w, Nat.mul_add_mod, Nat.mod_eq_of_lt hnxw]
        have hdiv2 : j / w = ny := by
          rw [hjval, Nat.mul_comm ny w, Nat.mul_add_div hw, Nat.div_eq_of_lt hnxw]
          omega
        have hdx3 : dx = -1 ∨ dx = 0 ∨ dx = 1 := by
          rcases hdx with hc | hc | hc <;> omega
        have hdy3 : dy = -1 ∨ dy = 0 ∨ dy = 1 := by
          rcases hdy with hc | hc | hc <;> omega
        refine ⟨?_, ?_, ?_, ?_⟩
        · rw [hjval]
          calc ny * w + nx < ny * w + w := by omega
            _ = (ny + 1) * w := by ring
            _ ≤ h * w := Nat.mul_le_mul_right w (by omega)
            _ = w * h := Nat.mul_comm h w
        · intro hji
          apply hzz
          have hmi : i % w = nx := by rw [← hji, hmod2]
          have hdi : i / w = ny := by rw [← hji, hdiv2]
          omega
        · omega
        · omega
      · rw [if_neg hb] at hout
        cases hout
  · rintro ⟨hjn, hji, hcol, hrow⟩
    have hjw : w * (j / w) + j % w = j := Nat.div_add_mod j w
    have hjmod : j % w < w := Nat.mod_lt j hw
    have hjdiv : j / w < h := Nat.div_lt_of_lt_mul (by omega)
    refine ⟨((j / w : ℕ) : ℤ) - ((i / w : ℕ) : ℤ), by omega,
      ((j % w : ℕ) : ℤ) - ((i % w : ℕ) : ℤ), by omega, ?_⟩
    rw [if_neg (by
      rintro ⟨h1, h2⟩
      apply hji
      have hmm : j % w = i % w := by omega
      have hdd : j / w = i / w := by omega
      rw [← hjw, ← hiw, hmm, hdd])]
    have hnn1 : (0 : ℤ) ≤ ((j / w : ℕ) : ℤ) := Int.natCast_nonneg _
    have hnn2 : (0 : ℤ) ≤ ((j % w : ℕ) : ℤ) := Int.natCast_nonneg _
    rw [if_pos (by
      rw [hxmod, hxdiv]
      refine ⟨?_, ?_, ?_, ?_⟩
      · omega
      · omega
      · omega
      · omega)]
    have hexpr : ((i : ℤ) / w + (((j / w : ℕ) : ℤ) - ((i / w : ℕ) : ℤ))) * w +
        ((i : ℤ) % w + (((j % w : ℕ) : ℤ) - ((i % w : ℕ) : ℤ))) = (j : ℤ) := by
      rw [hxmod, hxdiv]
      have : ((j / w : ℕ) : ℤ) * w + ((j % w : ℕ) : ℤ) = (j : ℤ) := by
        exact_mod_cast congrArg (Nat.cast : ℕ → ℤ)
          (by rw [Nat.mul_comm]; exact hjw)
      linarith [this]
    rw [hexpr]
    congr 1

theorem mem_getNeighbors_lt {w h i j : ℕ} (hi : i < w * h) (hj : j ∈ getNeighbors w h i) :
    j < w * h :=
  ((mem_getNeighbors_iff hi j).mp hj).1

theorem mem_getNeighbors_symm {w h i j : ℕ} (hi : i < w * h)
    (hj : j ∈ getNeighbors w h i) : i ∈ getNeighbors w h j := by
  obtain ⟨h1, h2, h3, h4⟩ := (mem_getNeighbors_iff hi j).mp hj
  rw [mem_getNeighbors_iff h1 i]
  exact ⟨hi, fun hc => h2 hc.symm, by omega, by omega⟩

/-- The neighbor scan inside one `while` iteration of the flood fill: push
every foreground, not-yet-visited neighbor onto the stack, marking it visited
and collecting it, in neighbor order.  State is `(queue-as-stack, visited,
indices)`. -/
def pushUnvisited (data : ℕ → ℕ) (ns : List ℕ) (s : List ℕ × Finset ℕ × List ℕ) :
    List ℕ × Finset ℕ × List ℕ :=
  ns.foldl (fun s n =>
    if 0 < data (n * 4) ∧ n ∉ s.2.1 then (n :: s.1, insert n s.2.1, n :: s.2.2) else s) s

/-- The `while (queue.length)` loop of `filterLargestComponent`, with a fuel
bound on the number of iterations (each iteration pops one entry and every
push marks a fresh cell visited, so `w*h + 1` fuel always suffices - see
`floodLoop_spec`).  Returns the collected component and the visited set. -/
def floodLoop (w h : ℕ) (data : ℕ → ℕ) :
    ℕ → List ℕ → Finset ℕ → List ℕ → List ℕ × Finset ℕ
  | 0, _, visited, acc => (acc, visited)
  | _ + 1, [], visited, acc => (acc, visited)
  | fuel + 1, c :: stack, visited, acc =>
      let s := pushUnvisited data (getNeighbors w h c) (stack, visited, acc)
      floodLoop w h data fuel s.1 s.2.1 s.2.2

theorem pushUnvisited_spec (data : ℕ → ℕ) (ns : List ℕ) :
    ∀ s : List ℕ × Finset ℕ × List ℕ,
      (s.2.1 ⊆ (pushUnvisited data ns s).2.1) ∧
      (∀ x, x ∈ (pushUnvisited data ns s).2.1 ↔
        x ∈ s.2.1 ∨ (x ∈ ns ∧ 0 < data (x * 4) ∧ x ∉ s.2.1)) ∧
      (∀ x, x ∈ (pushUnvisited data ns s).1 ↔
        x ∈ s.1 ∨ (x ∈ (pushUnvisited data ns s).2.1 ∧ x ∉ s.2.1)) ∧
      (∀ x, x ∈ (pushUnvisited data ns s).2.2 ↔
        x ∈ s.2.2 ∨ (x ∈ (pushUnvisited data ns s).2.1 ∧ x ∉ s.2.1)) ∧
      (∀ y ∈ ns, 0 < data (y * 4) → y ∈ (pushUnvisited data ns s).2.1) ∧
      (s.2.2.Nodup → (∀ x ∈ s.2.2, x ∈ s.2.1) → (pushUnvisited data ns s).2.2.Nodup) ∧
      ((pushUnvisited data ns s).1.length + s.2.1.card =
        s.1.length + (pushUnvisited data ns s).2.1.card) ∧
      ((pushUnvisited data ns s).2.2.length + s.2.1.card =
        s.2.2.length + (pushUnvisited data ns s).2.1.card) := by
  induction ns with
  | nil =>
      intro s
      refine ⟨fun x hx => hx, fun x => by simp [pushUnvisited], fun x => by simp [pushUnvisited],
        fun x => by simp [pushUnvisited], fun y hy => absurd hy (List.not_mem_nil y),
        fun hd _ => hd, by simp [pushUnvisited], by simp [pushUnvisited]⟩
  | cons a t ih =>
      intro s
      obtain ⟨s1, v, a2⟩ := s
      by_cases hcond : 0 < data (a * 4) ∧ a ∉ v
      · have hstep : pushUnvisited data (a :: t) (s1, v, a2) =
            pushUnvisited data t (a :: s1, insert a v, a :: a2) := by
          rw [pushUnvisited, List.foldl_cons, if_pos hcond]
          rfl
        obtain ⟨m1, m2, m3, m4, m5, m6, m7, m8⟩ := ih (a :: s1, insert a v, a :: a2)
        rw [hstep]
        dsimp only at m1 m2 m3 m4 m5 m6 m7 m8 ⊢
        refine ⟨?_, ?_, ?_, ?_, ?_, ?_, ?_, ?_⟩
        · exact fun x hx => m1 (Finset.mem_insert_of_mem hx)
        · intro x
          rw [m2 x]
          constructor
          · rintro (hx | ⟨hxt, hxfg, hxv⟩)
            · rcases Finset.mem_insert.mp hx with hx | hx
              · rw [hx]
                exact Or.inr ⟨List.mem_cons_self a t, hcond.1, hcond.2⟩
              · exact Or.inl hx
            · exact Or.inr ⟨List.mem_cons_of_mem a hxt, hxfg,
                fun hc => hxv (Finset.mem_insert_of_mem hc)⟩
          · rintro (hx | ⟨hxt, hxfg, hxv⟩)
            · exact Or.inl (Finset.mem_insert_of_mem hx)
            · by_cases hxa : x = a
              · subst hxa
                exact Or.inl (Finset.mem_insert_self x v)
              · rcases List.mem_cons.mp hxt with hx | hx
                · exact absurd hx hxa
                · refine Or.inr ⟨hx, hxfg, fun hc => ?_⟩
                  rcases Finset.mem_insert.mp hc with hc | hc
                  · exact hxa hc
                  · exact hxv hc
        · intro x
          rw [m3 x]
          constructor
          · rintro (hx | ⟨hxr, hxv⟩)
            · rcases List.mem_cons.mp hx with hx | hx
              · subst hx
                exact Or.inr ⟨m1 (Finset.mem_insert_self x v), hcond.2⟩
              · exact Or.inl hx
            · exact Or.inr ⟨hxr, fun hc => hxv (Finset.mem_insert_of_mem hc)⟩
          · rintro (hx | ⟨hxr, hxv⟩)
            · exact Or.inl (List.mem_cons_of_mem a hx)
            · by_cases hxa : x = a
              · subst hxa
                exact Or.inl (List.mem_cons_self x s1)
              · exact Or.inr ⟨hxr, fun hc => hxv (by
                  rcases Finset.mem_insert.mp hc with hc | hc
                  · exact absurd hc hxa
                  · exact hc)⟩
        · intro x
          rw [m4 x]
          constructor
          · rintro (hx | ⟨hxr, hxv⟩)
            · rcases List.mem_cons.mp hx with hx | hx
              · subst hx
                exact Or.inr ⟨m1 (Finset.mem_insert_self x v), hcond.2⟩
              · exact Or.inl hx
            · exact Or.inr ⟨hxr, fun hc => hxv (Finset.mem_insert_of_mem hc)⟩
          · rintro (hx | ⟨hxr, hxv⟩)
            · exact Or.inl (List.mem_cons_of_mem a hx)
            · by_cases hxa : x = a
              · subst hxa
                exact Or.inl (List.mem_cons_self x a2)
              · exact Or.inr ⟨hxr, fun hc => hxv (by
                  rcases Finset.mem_insert.mp hc with hc | hc
                  · exact absurd hc hxa
                  · exact hc)⟩
        · intro y hy hyfg
          rcases List.mem_cons.mp hy with hy | hy
          · subst hy
            exact m1 (Finset.mem_insert_self y v)
          · exact m5 y hy hyfg
        · intro hnd hsub
          refine m6 ?_ ?_
          · exact List.nodup_cons.mpr ⟨fun hc => hcond.2 (hsub a hc), hnd⟩
          · intro x hx
            rcases List.mem_cons.mp hx with hx | hx
            · subst hx
              exact Finset.mem_insert_self x v
            · exact Finset.mem_insert_of_mem (hsub x hx)
        · have hcard : (insert a v).card = v.card + 1 := Finset.card_insert_of_not_mem hcond.2
          dsimp only [List.length_cons] at m7
          omega
        · have hcard : (insert a v).card = v.card + 1 := Finset.card_insert_of_not_mem hcond.2
          dsimp only [List.length_cons] at m8
          omega
      · have hstep : pushUnvisited data (a :: t) (s1, v, a2) =
            pushUnvisited data t (s1, v, a2) := by
          rw [pushUnvisited, List.foldl_cons, if_neg hcond]
          rfl
        obtain ⟨m1, m2, m3, m4, m5, m6, m7, m8⟩ := ih (s1, v, a2)
        rw [hstep]
        dsimp only at m1 m2 m3 m4 m5 m6 m7 m8 ⊢
        refine ⟨m1, ?_, m3, m4, ?_, m6, m7, m8⟩
        · intro x
          rw [m2 x]
          constructor
          · rintro (hx | ⟨hxt, hxfg, hxv⟩)
            · exact Or.inl hx
            · exact Or.inr ⟨List.mem_cons_of_mem a hxt, hxfg, hxv⟩
          · rintro (hx | ⟨hxt, hxfg, hxv⟩)
            · exact Or.inl hx
            · rcases List.mem_cons.mp hxt with hx | hx
              · subst hx
                exact absurd ⟨hxfg, hxv⟩ hcond
              · exact Or.inr ⟨hx, hxfg, hxv⟩
        · intro y hy hyfg
          rcases List.mem_cons.mp hy with hy | hy
          · subst hy
            by_cases hyv : y ∈ v
            · exact m1 hyv
            · exact absurd ⟨hyfg, hyv⟩ hcond
          · exact m5 y hy hyfg

/-- Loop invariant of the flood fill, relative to the visited set `V₀` that
existed before this flood started and the start pixel `i₀`: the collected
`indices` are exactly the newly visited cells, all foreground, in bounds and
connected to `i₀`; stack entries are collected; and every newly visited cell
no longer on the stack has all its foreground neighbors visited. -/
def FloodInv (w h : ℕ) (data : ℕ → ℕ) (V0 : Finset ℕ) (i0 : ℕ)
    (stack : List ℕ) (visited : Finset ℕ) (acc : List ℕ) : Prop :=
  V0 ⊆ visited ∧
  (∀ x, x ∈ acc ↔ x ∈ visited ∧ x ∉ V0) ∧
  acc.Nodup ∧
  (∀ x ∈ acc, 0 < data (x * 4) ∧ x < w * h ∧ x ∈ compSet w h data i0) ∧
  (∀ x ∈ stack, x ∈ acc) ∧
  (∀ x ∈ visited, x ∉ V0 → x ∉ stack →
    ∀ y ∈ getNeighbors w h x, 0 < data (y * 4) → y ∈ visited)

/-- With enough fuel the flood fill terminates on an empty stack with the
invariant intact, and only ever grows the collected list. -/
theorem floodLoop_spec (w h : ℕ) (data : ℕ → ℕ) (V0 : Finset ℕ) (i0 : ℕ) :
    ∀ (fuel : ℕ) (stack : List ℕ) (visited : Finset ℕ) (acc : List ℕ),
      FloodInv w h data V0 i0 stack visited acc →
      stack.length + ((Finset.range (w * h)).filter (fun x => x ∉ visited)).card < fuel →
      FloodInv w h data V0 i0 [] (floodLoop w h data fuel stack visited acc).2
        (floodLoop w h data fuel stack visited acc).1 ∧
      (∀ x ∈ acc, x ∈ (floodLoop w h data fuel stack visited acc).1) := by
  intro fuel
  induction fuel with
  | zero =>
      intro stack visited acc _ hm
      omega
  | succ fuel ih =>
      intro stack visited acc hinv hm
      cases stack with
      | nil => exact ⟨hinv, fun x hx => hx⟩
      | cons c st =>
          have hstep : floodLoop w h data (fuel + 1) (c :: st) visited acc =
              floodLoop w h data fuel
                (pushUnvisited data (getNeighbors w h c) (st, visited, acc)).1
                (pushUnvisited data (getNeighbors w h c) (st, visited, acc)).2.1
                (pushUnvisited data (getNeighbors w h c) (st, visited, acc)).2.2 := rfl
          obtain ⟨p1, p2, p3, p4, p5, p6, p7, p8⟩ :=
            pushUnvisited_spec data (getNeighbors w h c) (st, visited, acc)
          set r := pushUnvisited data (getNeighbors w h c) (st, visited, acc) with hr
          dsimp only at p1 p2 p3 p4 p5 p6 p7 p8
          obtain ⟨i1, i2, i3, i4, i5, i6⟩ := hinv
          have hc_acc : c ∈ acc := i5 c (List.mem_cons_self c st)
          have hc_vis : c ∈ visited := ((i2 c).mp hc_acc).1
          obtain ⟨hcfg, hcn, hcreach⟩ := i4 c hc_acc
          have hnewmem : ∀ x, x ∈ r.2.1 → x ∉ visited →
              x ∈ getNeighbors w h c ∧ 0 < data (x * 4) := by
            intro x hx hxv
            rcases (p2 x).mp hx with h2 | h2
            · exact absurd h2 hxv
            · exact ⟨h2.1, h2.2.1⟩
          have hinv2 : FloodInv w h data V0 i0 r.1 r.2.1 r.2.2 := by
            refine ⟨fun x hx => p1 (i1 hx), ?_, ?_, ?_, ?_, ?_⟩
            · intro x
              constructor
              · intro hx
                rcases (p4 x).mp hx with hx2 | hx2
                · exact ⟨p1 ((i2 x).mp hx2).1, ((i2 x).mp hx2).2⟩
                · exact ⟨hx2.1, fun hV => hx2.2 (i1 hV)⟩
              · rintro ⟨hxr, hxV⟩
                by_cases hxv : x ∈ visited
                · exact (p4 x).mpr (Or.inl ((i2 x).mpr ⟨hxv, hxV⟩))
                · exact (p4 x).mpr (Or.inr ⟨hxr, hxv⟩)
            · exact p6 i3 fun x hx => ((i2 x).mp hx).1
            · intro x hx
              rcases (p4 x).mp hx with hx2 | hx2
              · exact i4 x hx2
              · obtain ⟨hnb, hfg⟩ := hnewmem x hx2.1 hx2.2
                exact ⟨hfg, mem_getNeighbors_lt hcn hnb,
                  Relation.ReflTransGen.tail hcreach ⟨hfg, hnb⟩⟩
            · intro x hx
              rcases (p3 x).mp hx with hx2 | hx2
              · exact (p4 x).mpr (Or.inl (i5 x (List.mem_cons_of_mem c hx2)))
              · exact (p4 x).mpr (Or.inr hx2)
            · intro x hxr hxV hxs y hy hyfg
              by_cases hxc : x = c
              · subst hxc
                exact p5 y hy hyfg
              · by_cases hxv : x ∈ visited
                · have hxst : x ∉ st := fun hc2 => hxs ((p3 x).mpr (Or.inl hc2))
                  have hxcst : x ∉ c :: st := by
                    intro hc2
                    rcases List.mem_cons.mp hc2 with hc2 | hc2
                    · exact hxc hc2
                    · exact hxst hc2
                  exact p1 (i6 x hxv hxV hxcst y hy hyfg)
                · exact absurd ((p3 x).mpr (Or.inr ⟨hxr, hxv⟩)) hxs
          have hmeas : r.1.length +
              ((Finset.range (w * h)).filter (fun x => x ∉ r.2.1)).card < fuel := by
            have hsub : visited ⊆ r.2.1 := p1
            have hUU : (Finset.range (w * h)).filter (fun x => x ∉ visited) =
                ((Finset.range (w * h)).filter (fun x => x ∉ r.2.1)) ∪ (r.2.1 \ visited) := by
              ext x
              simp only [Finset.mem_filter, Finset.mem_union, Finset.mem_sdiff,
                Finset.mem_range]
              constructor
              · rintro ⟨hxn, hxv⟩
                by_cases hxr : x ∈ r.2.1
                · exact Or.inr ⟨hxr, hxv⟩
                · exact Or.inl ⟨hxn, hxr⟩
              · rintro (⟨hxn, hxr⟩ | ⟨hxr, hxv⟩)
                · exact ⟨hxn, fun hc2 => hxr (hsub hc2)⟩
                · exact ⟨mem_getNeighbors_lt hcn (hnewmem x hxr hxv).1, hxv⟩
            have hdisj : Disjoint
                ((Finset.range (w * h)).filter (fun x => x ∉ r.2.1)) (r.2.1 \ visited) := by
              rw [Finset.disjoint_left]
              intro x hx1 hx2
              exact (Finset.mem_filter.mp hx1).2 (Finset.mem_sdiff.mp hx2).1
            have hcardU := congrArg Finset.card hUU
            rw [Finset.card_union_of_disjoint hdisj, Finset.card_sdiff hsub] at hcardU
            have hles : visited.card ≤ r.2.1.card := Finset.card_le_card hsub
            simp only [List.length_cons] at hm
            omega
          obtain ⟨f1, f2⟩ := ih r.1 r.2.1 r.2.2 hinv2 hmeas
          rw [hstep]
          exact ⟨f1, fun x hx => f2 x ((p4 x).mpr (Or.inl hx))⟩

/-- A flood fill started at an unvisited foreground pixel `i0`, against a
closed foreground visited set `V0`, collects exactly the connected component
of `i0` (duplicate-free) and returns `V0 ∪ component` as the new visited
set, which is again closed. -/
theorem flood_collects (w h : ℕ) (data : ℕ → ℕ) (V0 : Finset ℕ) (i0 : ℕ)
    (hfg : 0 < data (i0 * 4)) (hn : i0 < w * h) (hV : i0 ∉ V0)
    (hV0fg : ∀ x ∈ V0, 0 < data (x * 4) ∧ x < w * h)
    (hV0closed : ∀ x ∈ V0, ∀ y ∈ getNeighbors w h x, 0 < data (y * 4) → y ∈ V0) :
    (∀ x, x ∈ (floodLoop w h data (w * h + 1) [i0] (insert i0 V0) [i0]).1 ↔
      x ∈ compSet w h data i0) ∧
    (floodLoop w h data (w * h + 1) [i0] (insert i0 V0) [i0]).1.Nodup ∧
    (∀ x, x ∈ (floodLoop w h data (w * h + 1) [i0] (insert i0 V0) [i0]).2 ↔
      x ∈ V0 ∨ x ∈ compSet w h data i0) ∧
    (∀ x ∈ (floodLoop w h data (w * h + 1) [i0] (insert i0 V0) [i0]).2,
      0 < data (x * 4) ∧ x < w * h) ∧
    (∀ x ∈ (floodLoop w h data (w * h + 1) [i0] (insert i0 V0) [i0]).2,
      ∀ y ∈ getNeighbors w h x, 0 < data (y * 4) → y ∈
        (floodLoop w h data (w * h + 1) [i0] (insert i0 V0) [i0]).2) := by
  have hinit : FloodInv w h data V0 i0 [i0] (insert i0 V0) [i0] := by
    refine ⟨fun x hx => Finset.mem_insert_of_mem hx, ?_, List.nodup_singleton i0,
      ?_, fun x hx => hx, ?_⟩
    · intro x
      constructor
      · intro hx
        rw [List.mem_singleton] at hx
        subst hx
        exact ⟨Finset.mem_insert_self x V0, hV⟩
      · rintro ⟨hx1, hx2⟩
        rcases Finset.mem_insert.mp hx1 with hx1 | hx1
        · rw [hx1]
          exact List.mem_singleton.mpr rfl
        · exact absurd hx1 hx2
    · intro x hx
      rw [List.mem_singleton] at hx
      subst hx
      exact ⟨hfg, hn, Relation.ReflTransGen.refl⟩
    · intro x hx hxV hxs
      rcases Finset.mem_insert.mp hx with hx | hx
      · exact absurd (hx ▸ List.mem_singleton.mpr rfl) hxs
      · exact absurd hx hxV
  have hmeas : ([i0] : List ℕ).length +
      ((Finset.range (w * h)).filter (fun x => x ∉ insert i0 V0)).card < w * h + 1 := by
    have hsub : (Finset.range (w * h)).filter (fun x => x ∉ insert i0 V0) ⊆
        (Finset.range (w * h)).erase i0 := by
      intro x hx
      obtain ⟨hx1, hx2⟩ := Finset.mem_filter.mp hx
      exact Finset.mem_erase.mpr ⟨fun hc => hx2 (hc ▸ Finset.mem_insert_self i0 V0), hx1⟩
    have hle := Finset.card_le_card hsub
    rw [Finset.card_erase_of_mem (Finset.mem_range.mpr hn), Finset.card_range] at hle
    simp only [List.length_singleton]
    omega
  obtain ⟨⟨f1, f2, f3, f4, _, f6⟩, fmono⟩ :=
    floodLoop_spec w h data V0 i0 (w * h + 1) [i0] (insert i0 V0) [i0] hinit hmeas
  have hi0acc : i0 ∈ (floodLoop w h data (w * h + 1) [i0] (insert i0 V0) [i0]).1 :=
    fmono i0 (List.mem_singleton.mpr rfl)
  have hacc_comp : ∀ x ∈ (floodLoop w h data (w * h + 1) [i0] (insert i0 V0) [i0]).1,
      x ∈ compSet w h data i0 := fun x hx => (f4 x hx).2.2
  have hcomp_acc : ∀ x ∈ compSet w h data i0,
      x ∈ (floodLoop w h data (w * h + 1) [i0] (insert i0 V0) [i0]).1 := by
    intro x hx
    rw [compSet, Set.mem_setOf_eq] at hx
    induction hx with
    | refl => exact hi0acc
    | tail hzy hstep ihz =>
        rename_i z y
        obtain ⟨hyfg, hynb⟩ := hstep
        obtain ⟨hzvis, hzV0⟩ := (f2 z).mp ihz
        obtain ⟨hzfg, hzn, _⟩ := f4 z ihz
        have hyvis : y ∈ (floodLoop w h data (w * h + 1) [i0] (insert i0 V0) [i0]).2 :=
          f6 z hzvis hzV0 (List.not_mem_nil z) y hynb hyfg
        by_cases hyV0 : y ∈ V0
        · exfalso
          have hzy2 : z ∈ getNeighbors w h y := mem_getNeighbors_symm hzn hynb
          exact hzV0 (hV0closed y hyV0 z hzy2 hzfg)
        · exact (f2 y).mpr ⟨hyvis, hyV0⟩
  refine ⟨fun x => ⟨hacc_comp x, hcomp_acc x⟩, f3, ?_, ?_, ?_⟩
  · intro x
    constructor
    · intro hx
      by_cases hxV0 : x ∈ V0
      · exact Or.inl hxV0
      · exact Or.inr (hacc_comp x ((f2 x).mpr ⟨hx, hxV0⟩))
    · rintro (hx | hx)
      · exact f1 hx
      · exact ((f2 x).mp (hcomp_acc x hx)).1
  · intro x hx
    by_cases hxV0 : x ∈ V0
    · exact hV0fg x hxV0
    · obtain ⟨hxfg, hxn, _⟩ := f4 x ((f2 x).mpr ⟨hx, hxV0⟩)
      exact ⟨hxfg, hxn⟩
  · intro x hx y hy hyfg
    by_cases hxV0 : x ∈ V0
    · exact f1 (hV0closed x hxV0 y hy hyfg)
    · exact f6 x hx hxV0 (List.not_mem_nil x) y hy hyfg

theorem compSet_fg {w h : ℕ} {data : ℕ → ℕ} {x y : ℕ} (hx : 0 < data (x * 4))
    (hr : y ∈ compSet w h data x) : 0 < data (y * 4) := by
  rw [compSet, Set.mem_setOf_eq] at hr
  induction hr with
  | refl => exact hx
  | tail _ hstep _ => exact hstep.1

theorem compSet_lt {w h : ℕ} {data : ℕ → ℕ} {x y : ℕ} (hx : x < w * h)
    (hr : y ∈ compSet w h data x) : y < w * h := by
  rw [compSet, Set.mem_setOf_eq] at hr
  induction hr with
  | refl => exact hx
  | tail _ hstep ih => exact mem_getNeighbors_lt ih hstep.2

theorem compSet_symm {w h : ℕ} {data : ℕ → ℕ} {x y : ℕ} (hx : 0 < data (x * 4))
    (hxn : x < w * h) (hr : y ∈ compSet w h data x) : x ∈ compSet w h data y := by
  rw [compSet, Set.mem_setOf_eq] at hr ⊢
  induction hr with
  | refl => exact Relation.ReflTransGen.refl
  | tail hzy hstep ih =>
      rename_i z y2
      have hzfg : 0 < data (z * 4) := compSet_fg hx hzy
      have hzn : z < w * h := compSet_lt hxn hzy
      exact Relation.ReflTransGen.head ⟨hzfg, mem_getNeighbors_symm hzn hstep.2⟩ ih

theorem compSet_eq_of_mem {w h : ℕ} {data : ℕ → ℕ} {x y : ℕ} (hx : 0 < data (x * 4))
    (hxn : x < w * h) (hy : y ∈ compSet w h data x) :
    compSet w h data y = compSet w h data x := by
  have hyx : x ∈ compSet w h data y := compSet_symm hx hxn hy
  ext z
  rw [compSet, Set.mem_setOf_eq, compSet, Set.mem_setOf_eq]
  constructor
  · exact fun hz => Relation.ReflTransGen.trans hy hz
  · exact fun hz => Relation.ReflTransGen.trans hyx hz

theorem ncard_eq_length_of_nodup (lst : List ℕ) (S : Set ℕ) (hnd : lst.Nodup)
    (hiff : ∀ x, x ∈ lst ↔ x ∈ S) : S.ncard = lst.length := by
  have hS : S = ↑lst.toFinset := by
    ext x
    simp only [Finset.mem_coe, List.mem_toFinset]
    exact (hiff x).symm
  rw [hS, Set.ncard_coe_Finset, List.toFinset_card_of_nodup hnd]

/-- The outer `for` loop of `filterLargestComponent`: scan the pixels in
order, flood-fill each unvisited foreground pixel, and keep the strictly
largest collected component. -/
def largestLoop (w h : ℕ) (data : ℕ → ℕ) : List ℕ → Finset ℕ → List ℕ → List ℕ
  | [], _, best => best
  | i :: rest, visited, best =>
      if data (i * 4) = 0 ∨ i ∈ visited then largestLoop w h data rest visited best
      else
        largestLoop w h data rest
          (floodLoop w h data (w * h + 1) [i] (insert i visited) [i]).2
          (if best.length <
              (floodLoop w h data (w * h + 1) [i] (insert i visited) [i]).1.length
           then (floodLoop w h data (w * h + 1) [i] (insert i visited) [i]).1
           else best)

/-- Outer-loop correctness: given a closed foreground visited set whose
members' components are already counted against `best`, the loop returns a
list at least as long as `best` that bounds every scanned foreground pixel's
component size and is itself (when non-empty) exactly some foreground
pixel's component. -/
theorem largestLoop_spec (w h : ℕ) (data : ℕ → ℕ) :
    ∀ (l : List ℕ) (visited : Finset ℕ) (best : List ℕ),
      (∀ j ∈ l, j < w * h) →
      (∀ x ∈ visited, 0 < data (x * 4) ∧ x < w * h) →
      (∀ x ∈ visited, ∀ y ∈ getNeighbors w h x, 0 < data (y * 4) → y ∈ visited) →
      (∀ x ∈ visited, (compSet w h data x).ncard ≤ best.length) →
      (best = [] ∨ ∃ i0, 0 < data (i0 * 4) ∧ i0 < w * h ∧
        (∀ x, x ∈ best ↔ x ∈ compSet w h data i0) ∧ best.Nodup) →
      best.length ≤ (largestLoop w h data l visited best).length ∧
      (∀ j ∈ l, 0 < data (j * 4) →
        (compSet w h data j).ncard ≤ (largestLoop w h data l visited best).length) ∧
      (largestLoop w h data l visited best = [] ∨ ∃ i0, 0 < data (i0 * 4) ∧ i0 < w * h ∧
        (∀ x, x ∈ largestLoop w h data l visited best ↔ x ∈ compSet w h data i0) ∧
        (largestLoop w h data l visited best).Nodup) := by
  intro l
  induction l with
  | nil =>
      intro visited best _ _ _ _ hbest
      exact ⟨le_refl _, fun j hj => absurd hj (List.not_mem_nil j), hbest⟩
  | cons j rest ih =>
      intro visited best hl hvfg hvclosed hvbound hbest
      by_cases hskip : data (j * 4) = 0 ∨ j ∈ visited
      · have hstep : largestLoop w h data (j :: rest) visited best =
            largestLoop w h data rest visited best := by
          rw [largestLoop, if_pos hskip]
        obtain ⟨c1, c2, c3⟩ := ih visited best (fun x hx => hl x (List.mem_cons_of_mem j hx))
          hvfg hvclosed hvbound hbest
        rw [hstep]
        refine ⟨c1, ?_, c3⟩
        intro x hx hxfg
        rcases List.mem_cons.mp hx with hx | hx
        · subst hx
          rcases hskip with hskip | hskip
          · omega
          · exact le_trans (hvbound x hskip) c1
        · exact c2 x hx hxfg
      · push_neg at hskip
        obtain ⟨hjdata, hjvis⟩ := hskip
        have hjfg : 0 < data (j * 4) := Nat.pos_of_ne_zero hjdata
        have hjn : j < w * h := hl j (List.mem_cons_self j rest)
        obtain ⟨g1, g2, g3, g4, g5⟩ :=
          flood_collects w h data visited j hjfg hjn hjvis hvfg hvclosed
        have hstep : largestLoop w h data (j :: rest) visited best =
            largestLoop w h data rest
              (floodLoop w h data (w * h + 1) [j] (insert j visited) [j]).2
              (if best.length <
                  (floodLoop w h data (w * h + 1) [j] (insert j visited) [j]).1.length
               then (floodLoop w h data (w * h + 1) [j] (insert j visited) [j]).1
               else best) := by
          rw [largestLoop, if_neg (by push_neg; exact ⟨hjdata, hjvis⟩)]
        set acc := (floodLoop w h data (w * h + 1) [j] (insert j visited) [j]).1 with hacc
        set vis2 := (floodLoop w h data (w * h + 1) [j] (insert j visited) [j]).2 with hvis2
        set best2 := if best.length < acc.length then acc else best with hbest2
        have hcompj : (compSet w h data j).ncard = acc.length :=
          ncard_eq_length_of_nodup acc _ g2 fun x => g1 x
        have hbestle : best.length ≤ best2.length := by
          rw [hbest2]
          by_cases hlt : best.length < acc.length
          · rw [if_pos hlt]; omega
          · rw [if_neg hlt]
        have haccle : acc.length ≤ best2.length := by
          rw [hbest2]
          by_cases hlt : best.length < acc.length
          · rw [if_pos hlt]
          · rw [if_neg hlt]; omega
        obtain ⟨c1, c2, c3⟩ := ih vis2 best2
          (fun x hx => hl x (List.mem_cons_of_mem j hx)) g4 g5
          (by
            intro x hx
            rcases (g3 x).mp hx with hx2 | hx2
            · exact le_trans (hvbound x hx2) hbestle
            · rw [compSet_eq_of_mem hjfg hjn hx2, hcompj]
              exact haccle)
          (by
            rw [hbest2]
            by_cases hlt : best.length < acc.length
            · rw [if_pos hlt]
              exact Or.inr ⟨j, hjfg, hjn, g1, g2⟩
            · rw [if_neg hlt]
              exact hbest)
        rw [hstep]
        refine ⟨le_trans hbestle c1, ?_, c3⟩
        intro x hx hxfg
        rcases List.mem_cons.mp hx with hx | hx
        · subst hx
          rw [hcompj]
          exact le_trans haccle c1
        · exact c2 x hx hxfg

/-- One output write of `filterLargestComponent`: red and alpha 255, green
and blue 0, at pixel `idx`. -/
def maskWrite (o : ℕ → ℕ) (idx : ℕ) : ℕ → ℕ :=
  upd (upd (upd (upd o (idx * 4) 255) (idx * 4 + 1) 0) (idx * 4 + 2) 0) (idx * 4 + 3) 255

/-- `filterLargestComponent(mask)` of the SAM engine (src/lib/sam): keep only
the largest 8-connected foreground component of a binary mask, writing it
into a zero-initialized RGBA buffer. -/
def filterLargestComponent (w h : ℕ) (data : ℕ → ℕ) : ℕ → ℕ :=
  (largestLoop w h data (List.range (w * h)) ∅ []).foldl maskWrite fun _ => 0

theorem foldl_maskWrite_red (l : List ℕ) (z : ℕ → ℕ) (j : ℕ) :
    l.foldl maskWrite z (j * 4) = if j ∈ l then 255 else z (j * 4) := by
  induction l generalizing z with
  | nil => simp
  | cons a t ih =>
      rw [List.foldl_cons, ih]
      by_cases hjt : j ∈ t
      · rw [if_pos hjt, if_pos (List.mem_cons_of_mem a hjt)]
      · rw [if_neg hjt]
        by_cases hja : j = a
        · subst hja
          rw [if_pos (List.mem_cons_self j t), maskWrite,
            upd_ne _ _ (by omega), upd_ne _ _ (by omega), upd_ne _ _ (by omega), upd_same]
        · rw [if_neg (by
            intro hc
            rcases List.mem_cons.mp hc with hc | hc
            · exact hja hc
            · exact hjt hc)]
          have hne : j ≠ a := hja
          rw [maskWrite, upd_ne _ _ (by omega), upd_ne _ _ (by omega),
            upd_ne _ _ (by omega), upd_ne _ _ (by omega)]

theorem largestLoop_of_no_fg (w h : ℕ) (data : ℕ → ℕ) :
    ∀ (l : List ℕ) (visited : Finset ℕ) (best : List ℕ),
      (∀ j ∈ l, data (j * 4) = 0) → largestLoop w h data l visited best = best := by
  intro l
  induction l with
  | nil => intro visited best _; rfl
  | cons j rest ih =>
      intro visited best hz
      rw [largestLoop, if_pos (Or.inl (hz j (List.mem_cons_self j rest)))]
      exact ih visited best fun x hx => hz x (List.mem_cons_of_mem j hx)

/-- The 100-pixel blob of the synthetic test mask: a 10×10 square in a 14×10
image. -/
def blobA : List ℕ := (List.range 10).flatMap fun y => (List.range 10).map fun x => y * 14 + x

/-- The 3-pixel blob of the synthetic test mask, two empty columns away from
the square (so 8-disconnected from it). -/
def blobB : List ℕ := [12, 13, 26]

/-- The synthetic mask image: red (and only red) 255 on both blobs. -/
def synthMask : ℕ → ℕ := fun k =>
  if k % 4 = 0 ∧ (k / 4 ∈ blobA ∨ k / 4 ∈ blobB) then 255 else 0

set_option maxRecDepth 200000 in
theorem largestLoop_synth :
    largestLoop 14 10 synthMask (List.range (14 * 10)) ∅ [] =
      [3, 5, 4, 19, 18, 33, 63, 49, 48, 35, 34, 20, 6, 21, 7, 9, 8, 23, 22, 37, 36, 51,
        50, 65, 64, 79, 78, 93, 42, 70, 56, 71, 57, 72, 102, 101, 87, 100, 86, 85, 84,
        99, 98, 126, 112, 127, 113, 128, 114, 129, 115, 130, 116, 131, 117, 132, 135,
        134, 133, 121, 107, 120, 119, 118, 106, 92, 105, 104, 103, 91, 77, 90, 89, 88,
        76, 62, 75, 74, 73, 61, 47, 60, 59, 58, 46, 32, 45, 44, 43, 31, 17, 30, 29, 28,
        16, 2, 15, 14, 1, 0] := by
  decide

set_option maxRecDepth 4000 in
/-- C7: `filterLargestComponent` keeps exactly the pixels of a largest
8-connected foreground component (red byte > 0 marks foreground): when any
foreground pixel exists, the output's positive red bytes are exactly some
foreground pixel's connected component, of maximal size among all foreground
components; with no foreground the output is all zero; and on the synthetic
14×10 mask holding a 100-pixel blob and a 3-pixel blob, exactly the 100-pixel
blob is kept. -/
theorem filterLargestComponent_spec :
    (∀ (w h : ℕ) (data : ℕ → ℕ),
      ((∃ j, j < w * h ∧ 0 < data (j * 4)) →
        ∃ i0, i0 < w * h ∧ 0 < data (i0 * 4) ∧
          (∀ j, 0 < filterLargestComponent w h data (j * 4) ↔ j ∈ compSet w h data i0) ∧
          (∀ j, j < w * h → 0 < data (j * 4) →
            (compSet w h data j).ncard ≤ (compSet w h data i0).ncard)) ∧
      ((∀ j, j < w * h → data (j * 4) = 0) → ∀ k, filterLargestComponent w h data k = 0)) ∧
    (∀ j, j < 14 * 10 →
      (0 < filterLargestComponent 14 10 synthMask (j * 4) ↔ j ∈ blobA)) := by
  constructor
  · intro w h data
    constructor
    · rintro ⟨j, hjn, hjfg⟩
      obtain ⟨c1, c2, c3⟩ := largestLoop_spec w h data (List.range (w * h)) ∅ []
        (fun x hx => List.mem_range.mp hx) (by simp) (by simp) (by simp) (Or.inl rfl)
      have hcompfin : (compSet w h data j).Finite :=
        Set.Finite.subset (Set.finite_lt_nat (w * h)) fun x hx => compSet_lt hjn hx
      have hpos : 0 < (compSet w h data j).ncard :=
        (Set.ncard_pos hcompfin).mpr ⟨j, Relation.ReflTransGen.refl⟩
      have hlen : 0 < (largestLoop w h data (List.range (w * h)) ∅ []).length :=
        lt_of_lt_of_le hpos (c2 j (List.mem_range.mpr hjn) hjfg)
      rcases c3 with hnil | ⟨i0, hi0fg, hi0n, hiff, hnodup⟩
      · rw [hnil] at hlen
        simp at hlen
      · have hlencomp : (compSet w h data i0).ncard =
            (largestLoop w h data (List.range (w * h)) ∅ []).length :=
          ncard_eq_length_of_nodup _ _ hnodup hiff
        refine ⟨i0, hi0n, hi0fg, ?_, ?_⟩
        · intro j2
          rw [filterLargestComponent, foldl_maskWrite_red]
          by_cases hj2 : j2 ∈ largestLoop w h data (List.range (w * h)) ∅ []
          · rw [if_pos hj2]
            simp only [Nat.zero_lt_succ, true_iff]
            exact (hiff j2).mp hj2
          · rw [if_neg hj2]
            simp only [lt_self_iff_false, false_iff]
            exact fun hc => hj2 ((hiff j2).mpr hc)
        · intro j2 hj2n hj2fg
          rw [hlencomp]
          exact c2 j2 (List.mem_range.mpr hj2n) hj2fg
    · intro hz k
      rw [filterLargestComponent,
        largestLoop_of_no_fg w h data _ ∅ [] fun x hx => hz x (List.mem_range.mp hx)]
      rfl
  · have hinst : ∀ j, j < 14 * 10 →
        ((0 < if j ∈ ([3, 5, 4, 19, 18, 33, 63, 49, 48, 35, 34, 20, 6, 21, 7, 9, 8, 23,
            22, 37, 36, 51, 50, 65, 64, 79, 78, 93, 42, 70, 56, 71, 57, 72, 102, 101,
            87, 100, 86, 85, 84, 99, 98, 126, 112, 127, 113, 128, 114, 129, 115, 130,
            116, 131, 117, 132, 135, 134, 133, 121, 107, 120, 119, 118, 106, 92, 105,
            104, 103, 91, 77, 90, 89, 88, 76, 62, 75, 74, 73, 61, 47, 60, 59, 58, 46,
            32, 45, 44, 43, 31, 17, 30, 29, 28, 16, 2, 15, 14, 1, 0] : List ℕ)
          then (255 : ℕ) else 0) ↔ j ∈ blobA) := by
      decide
    intro j hj
    rw [filterLargestComponent, largestLoop_synth, foldl_maskWrite_red]
    exact hinst j hj

theorem filterLargestComponent_spec_witness :
    (5 : ℕ) < 14 * 10 ∧
      (0 < filterLargestComponent 14 10 synthMask (5 * 4) ↔ 5 ∈ blobA) :=
  ⟨by norm_num, filterLargestComponent_spec.2 5 (by norm_num)⟩

/-! ## History manager (ImageCanvas component state) -/

/-- A history entry (`HistoryState` of the component): a full snapshot of the
displayed raster plus a timestamp. -/
structure HistoryState where
  imageData : List ℕ
  timestamp : ℕ
deriving DecidableEq

/-- The history-related state of the canvas component: `history`,
`currentHistoryIndex` (−1 before any entry exists) and the displayed buffer
`baseImageData`. -/
structure CanvasHistory where
  entries : List HistoryState
  cursor : ℤ
  display : List ℕ
deriving DecidableEq

/-- `saveToHistory(img)`: drop the redo branch (`history.slice(0,
currentHistoryIndex + 1)`), append the snapshot, `shift()` out the oldest
entry if the length exceeds 20, and set the cursor to the new last index.
`baseImageData` is not touched by `saveToHistory` itself (its callers set it
separately). -/
def saveToHistory (h : CanvasHistory) (img : List ℕ) (ts : ℕ) : CanvasHistory :=
  let newHistory := h.entries.take (h.cursor + 1).toNat ++ [⟨img, ts⟩]
  let newHistory2 := if 20 < newHistory.length then newHistory.tail else newHistory
  { entries := newHistory2, cursor := (newHistory2.length : ℤ) - 1, display := h.display }

/-- `undo()`: when `currentHistoryIndex > 0`, step the cursor back and display
that entry.  (The out-of-bounds lookup - impossible for reachable states by
`reachable_invariant` - is modelled as leaving the display unchanged.) -/
def undo (h : CanvasHistory) : CanvasHistory :=
  if 0 < h.cursor then
    match h.entries[(h.cursor - 1).toNat]? with
    | some e => { entries := h.entries, cursor := h.cursor - 1, display := e.imageData }
    | none => { entries := h.entries, cursor := h.cursor - 1, display := h.display }
  else h

/-- `redo()`: when `currentHistoryIndex < history.length - 1`, step the cursor
forward and display that entry. -/
def redo (h : CanvasHistory) : CanvasHistory :=
  if h.cursor < (h.entries.length : ℤ) - 1 then
    match h.entries[(h.cursor + 1).toNat]? with
    | some e => { entries := h.entries, cursor := h.cursor + 1, display := e.imageData }
    | none => { entries := h.entries, cursor := h.cursor + 1, display := h.display }
  else h

theorem undo_entries (h : CanvasHistory) : (undo h).entries = h.entries := by
  rw [undo]
  by_cases hc : 0 < h.cursor
  · rw [if_pos hc]
    cases h.entries[(h.cursor - 1).toNat]? <;> rfl
  · rw [if_neg hc]

theorem undo_cursor_of_pos {h : CanvasHistory} (hc : 0 < h.cursor) :
    (undo h).cursor = h.cursor - 1 := by
  rw [undo, if_pos hc]
  cases h.entries[(h.cursor - 1).toNat]? <;> rfl

theorem redo_entries (h : CanvasHistory) : (redo h).entries = h.entries := by
  rw [redo]
  by_cases hc : h.cursor < (h.entries.length : ℤ) - 1
  · rw [if_pos hc]
    cases h.entries[(h.cursor + 1).toNat]? <;> rfl
  · rw [if_neg hc]

theorem redo_cursor_of_lt {h : CanvasHistory} (hc : h.cursor < (h.entries.length : ℤ) - 1) :
    (redo h).cursor = h.cursor + 1 := by
  rw [redo, if_pos hc]
  cases h.entries[(h.cursor + 1).toNat]? <;> rfl

/-- The canvas-history states reachable from the freshly mounted component:
edits (which set the displayed buffer and push it), undos and redos. -/
inductive ReachableHistory : CanvasHistory → Prop
  | init : ReachableHistory ⟨[], -1, []⟩
  | edit (h : CanvasHistory) (img : List ℕ) (ts : ℕ) : ReachableHistory h →
      ReachableHistory (saveToHistory { h with display := img } img ts)
  | stepBack (h : CanvasHistory) : ReachableHistory h → ReachableHistory (undo h)
  | stepForward (h : CanvasHistory) : ReachableHistory h → ReachableHistory (redo h)

/-- Structural invariant of reachable history states: either no entry exists
yet and the cursor is −1, or the cursor is a valid index. -/
theorem reachable_invariant (h : CanvasHistory) (hr : ReachableHistory h) :
    (h.entries = [] ∧ h.cursor = -1) ∨
    (h.entries ≠ [] ∧ 0 ≤ h.cursor ∧ h.cursor < h.entries.length) := by
  induction hr with
  | init => exact Or.inl ⟨rfl, rfl⟩
  | edit h img ts _ ih =>
      right
      rw [saveToHistory]
      set nh := ({ h with display := img } : CanvasHistory).entries.take
        (({ h with display := img } : CanvasHistory).cursor + 1).toNat ++ [⟨img, ts⟩] with hnh
      have hlen : 1 ≤ nh.length := by
        rw [hnh, List.length_append, List.length_cons, List.length_nil]
        omega
      by_cases hcap : 20 < nh.length
      · have htail : nh.tail.length = nh.length - 1 := List.length_tail nh
        simp only [if_pos hcap]
        refine ⟨?_, by omega, by push_cast [htail]; omega⟩
        intro hnil
        rw [← List.length_eq_zero] at hnil
        omega
      · simp only [if_neg hcap]
        refine ⟨?_, by omega, by omega⟩
        intro hnil
        rw [← List.length_eq_zero] at hnil
        omega
  | stepBack h _ ih =>
      by_cases hc : 0 < h.cursor
      · rcases ih with ⟨_, hcur⟩ | ⟨hne, h0, hlt⟩
        · omega
        · right
          rw [undo_entries, undo_cursor_of_pos hc]
          exact ⟨hne, by omega, by omega⟩
      · rw [undo, if_neg hc]; exact ih
  | stepForward h _ ih =>
      by_cases hc : h.cursor < (h.entries.length : ℤ) - 1
      · rcases ih with ⟨hnil, hcur⟩ | ⟨hne, h0, hlt⟩
        · exfalso
          rw [hnil] at hc
          simp only [List.length_nil, Nat.cast_zero] at hc
          omega
        · right
          rw [redo_entries, redo_cursor_of_lt hc]
          exact ⟨hne, by omega, by omega⟩
      · rw [redo, if_neg hc]; exact ih

set_option maxRecDepth 4000 in
/-- C4: the push operation truncates entries past the cursor, appends the new
snapshot, evicts the oldest entry when the length exceeds 20, and moves the
cursor to the new last index; consequently after pushing 25 snapshots the
history holds exactly the last 20 (the oldest 5 are gone, hence unreachable
by undo, and the cursor sits at the last index), and `0 ≤ cursor < length`
holds for every reachable state with a non-empty history. -/
theorem saveToHistory_spec :
    (∀ (h : CanvasHistory) (img : List ℕ) (ts : ℕ),
      (saveToHistory h img ts).entries =
        (if 20 < (h.entries.take (h.cursor + 1).toNat ++ [(⟨img, ts⟩ : HistoryState)]).length
         then (h.entries.take (h.cursor + 1).toNat ++ [(⟨img, ts⟩ : HistoryState)]).tail
         else h.entries.take (h.cursor + 1).toNat ++ [(⟨img, ts⟩ : HistoryState)]) ∧
      (saveToHistory h img ts).cursor = ((saveToHistory h img ts).entries.length : ℤ) - 1) ∧
    (((List.range 25).foldl (fun h j => saveToHistory { h with display := [j] } [j] j)
        ⟨[], -1, []⟩).entries.length = 20 ∧
     (((List.range 25).foldl (fun h j => saveToHistory { h with display := [j] } [j] j)
        ⟨[], -1, []⟩).entries.map HistoryState.imageData) =
          (List.range 20).map (fun j => [j + 5]) ∧
     (∀ j < 5, [j] ∉ (((List.range 25).foldl
        (fun h j => saveToHistory { h with display := [j] } [j] j)
        ⟨[], -1, []⟩).entries.map HistoryState.imageData)) ∧
     ((List.range 25).foldl (fun h j => saveToHistory { h with display := [j] } [j] j)
        ⟨[], -1, []⟩).cursor = 19) ∧
    (∀ h : CanvasHistory, ReachableHistory h → h.entries ≠ [] →
      0 ≤ h.cursor ∧ h.cursor < h.entries.length) := by
  refine ⟨fun h img ts => ⟨rfl, rfl⟩, by decide, fun h hr hne => ?_⟩
  rcases reachable_invariant h hr with ⟨hnil, _⟩ | ⟨_, h0, hlt⟩
  · exact absurd hnil hne
  · exact ⟨h0, hlt⟩

theorem saveToHistory_spec_witness :
    ReachableHistory (saveToHistory { (⟨[], -1, []⟩ : CanvasHistory) with display := [9] } [9] 3) ∧
    (saveToHistory { (⟨[], -1, []⟩ : CanvasHistory) with display := [9] } [9] 3).entries ≠ [] ∧
    (0 ≤ (saveToHistory { (⟨[], -1, []⟩ : CanvasHistory) with display := [9] } [9] 3).cursor ∧
      (saveToHistory { (⟨[], -1, []⟩ : CanvasHistory) with display := [9] } [9] 3).cursor <
        (saveToHistory { (⟨[], -1, []⟩ : CanvasHistory) with display := [9] } [9] 3).entries.length) :=
  ⟨ReachableHistory.edit _ [9] 3 ReachableHistory.init, by decide,
    saveToHistory_spec.2.2 _ (ReachableHistory.edit _ [9] 3 ReachableHistory.init) (by decide)⟩

/-- C5: `undo`/`redo` move the cursor by −1/+1 exactly when in bounds, are
(total, non-throwing) no-ops at their boundaries, and from a non-boundary
cursor `undo(); redo()` restores the exact starting state - in particular the
displayed snapshot is bit-identical to the one before the pair of calls. -/
theorem undo_redo_spec :
    (∀ h : CanvasHistory, h.cursor ≤ 0 → undo h = h) ∧
    (∀ h : CanvasHistory, (h.entries.length : ℤ) - 1 ≤ h.cursor → redo h = h) ∧
    (∀ h : CanvasHistory, 0 < h.cursor →
      (undo h).cursor = h.cursor - 1 ∧ (undo h).entries = h.entries) ∧
    (∀ h : CanvasHistory, h.cursor < (h.entries.length : ℤ) - 1 →
      (redo h).cursor = h.cursor + 1 ∧ (redo h).entries = h.entries) ∧
    (∀ (h : CanvasHistory) (e : HistoryState), 0 < h.cursor →
      h.cursor < h.entries.length → h.entries[h.cursor.toNat]? = some e →
      h.display = e.imageData → redo (undo h) = h) := by
  refine ⟨fun h hc => ?_, fun h hc => ?_, fun h hc => ?_, fun h hc => ?_,
    fun h e hc hlt hget hdisp => ?_⟩
  · rw [undo, if_neg (by omega)]
  · rw [redo, if_neg (by omega)]
  · exact ⟨undo_cursor_of_pos hc, undo_entries h⟩
  · exact ⟨redo_cursor_of_lt hc, redo_entries h⟩
  · obtain ⟨en, cu, di⟩ := h
    dsimp only at hc hlt hget hdisp ⊢
    have hprev : ∃ e', en[(cu - 1).toNat]? = some e' := by
      have hb : (cu - 1).toNat < en.length := by omega
      exact ⟨en[(cu - 1).toNat], List.getElem?_eq_getElem hb⟩
    obtain ⟨e', he'⟩ := hprev
    rw [undo]
    dsimp only
    rw [if_pos hc, he']
    rw [redo]
    dsimp only
    rw [if_pos (show cu - 1 < (en.length : ℤ) - 1 by omega)]
    rw [show cu - 1 + 1 = cu by omega, hget]
    show ({ entries := en, cursor := cu, display := e.imageData } : CanvasHistory) =
      { entries := en, cursor := cu, display := di }
    rw [hdisp]

/-! ## Surfaces and `reapplyWalls` (claim C6) -/

/-- A painted surface (`WallSurface`): its pixel-index mask, color and
enabled flag (`id`/`groupId` play no role in the rebuild). -/
structure WallSurface where
  pixels : List ℕ
  color : HexColor
  enabled : Bool

/-- Which recolor strategy is active, together with its precomputed per-pixel
buffers (`algorithm === 'intrinsic' && intrinsicRef.current` chooses the
learned path, otherwise `retinexRef.current` drives the Retinex path). -/
inductive ActiveAlgorithm where
  | retinex (pre : RetinexData)
  | intrinsic (dec : Decomposition)

/-- One iteration of the `reapplyWalls` loop body for an enabled wall. -/
def applyWallColor (alg : ActiveAlgorithm) (base : ℕ → ℕ) (w : WallSurface) : ℕ → ℕ :=
  match alg with
  | .retinex pre => applyRetinexRecolor base w.pixels w.color pre
  | .intrinsic dec => applyReflectanceColor base dec w.pixels w.color

/-- `reapplyWalls(wallList)`: rebuild from a fresh copy of the pristine
white-balanced base, applying every enabled wall in array order. -/
def reapplyWalls (alg : ActiveAlgorithm) (wallList : List WallSurface)
    (originalImageData : ℕ → ℕ) : ℕ → ℕ :=
  wallList.foldl (fun base w => if w.enabled then applyWallColor alg base w else base)
    originalImageData

/-- The RGB triple the active strategy writes at masked pixel `i` of wall `w`
(writes never read the image being recolored, so this is well defined). -/
def wallWrittenRGB (alg : ActiveAlgorithm) (w : WallSurface) (i : ℕ) : ℕ × ℕ × ℕ :=
  match alg with
  | .retinex pre => retinexWrittenRGB pre w.color w.pixels i
  | .intrinsic dec => reflectWrittenRGB dec w.pixels w.color i

theorem mask_addr_ne {indices : List ℕ} {j : ℕ} (hj : j / 4 ∉ indices) :
    ∀ i ∈ indices, j ≠ i * 4 ∧ j ≠ i * 4 + 1 ∧ j ≠ i * 4 + 2 := by
  intro i hi
  have : j / 4 ≠ i := fun h => hj (h ▸ hi)
  omega

theorem applyRetinexRecolor_apply_of_not_mem (data : ℕ → ℕ) (indices : List ℕ)
    (colorHex : HexColor) (pre : RetinexData) {j : ℕ} (hj : j / 4 ∉ indices) :
    applyRetinexRecolor data indices colorHex pre j = data j := by
  rw [applyRetinexRecolor]
  by_cases h0 : indices.length = 0
  · rw [if_pos h0]
  · rw [if_neg h0, foldl_writeRGB_apply_of_forall_ne _ _ _ _ (mask_addr_ne hj)]

theorem applyReflectanceColor_apply_of_not_mem (data : ℕ → ℕ) (dec : Decomposition)
    (indices : List ℕ) (target : HexColor) {j : ℕ} (hj : j / 4 ∉ indices) :
    applyReflectanceColor data dec indices target j = data j := by
  rw [applyReflectanceColor, foldl_writeRGB_apply_of_forall_ne _ _ _ _ (mask_addr_ne hj)]

theorem applyRetinexRecolor_apply_of_mem (data : ℕ → ℕ) (indices : List ℕ)
    (colorHex : HexColor) (pre : RetinexData) {p : ℕ} (hp : p ∈ indices) :
    applyRetinexRecolor data indices colorHex pre (p * 4) =
        (retinexWrittenRGB pre colorHex indices p).1 ∧
      applyRetinexRecolor data indices colorHex pre (p * 4 + 1) =
        (retinexWrittenRGB pre colorHex indices p).2.1 ∧
      applyRetinexRecolor data indices colorHex pre (p * 4 + 2) =
        (retinexWrittenRGB pre colorHex indices p).2.2 := by
  have h0 : indices.length ≠ 0 := by
    cases indices with
    | nil => cases hp
    | cons a t => simp
  rw [applyRetinexRecolor, if_neg h0]
  exact foldl_writeRGB_apply_of_mem _ _ _ _ hp

theorem applyReflectanceColor_apply_of_mem (data : ℕ → ℕ) (dec : Decomposition)
    (indices : List ℕ) (target : HexColor) {p : ℕ} (hp : p ∈ indices) :
    applyReflectanceColor data dec indices target (p * 4) =
        (reflectWrittenRGB dec indices target p).1 ∧
      applyReflectanceColor data dec indices target (p * 4 + 1) =
        (reflectWrittenRGB dec indices target p).2.1 ∧
      applyReflectanceColor data dec indices target (p * 4 + 2) =
        (reflectWrittenRGB dec indices target p).2.2 := by
  rw [applyReflectanceColor]
  exact foldl_writeRGB_apply_of_mem _ _ _ _ hp

theorem applyWallColor_alpha (alg : ActiveAlgorithm) (base : ℕ → ℕ)
    (w : WallSurface) (p : ℕ) :
    applyWallColor alg base w (p * 4 + 3) = base (p * 4 + 3) := by
  have hj : ∀ i ∈ w.pixels, p * 4 + 3 ≠ i * 4 ∧ p * 4 + 3 ≠ i * 4 + 1 ∧
      p * 4 + 3 ≠ i * 4 + 2 := by
    intro i _
    omega
  cases alg with
  | retinex pre =>
      rw [applyWallColor, applyRetinexRecolor]
      by_cases h0 : w.pixels.length = 0
      · rw [if_pos h0]
      · rw [if_neg h0, foldl_writeRGB_apply_of_forall_ne _ _ _ _ hj]
  | intrinsic dec =>
      rw [applyWallColor, applyReflectanceColor,
        foldl_writeRGB_apply_of_forall_ne _ _ _ _ hj]

theorem applyWallColor_apply_of_not_mem (alg : ActiveAlgorithm) (base : ℕ → ℕ)
    (w : WallSurface) {j : ℕ} (hj : j / 4 ∉ w.pixels) :
    applyWallColor alg base w j = base j := by
  cases alg with
  | retinex pre => exact applyRetinexRecolor_apply_of_not_mem _ _ _ _ hj
  | intrinsic dec => exact applyReflectanceColor_apply_of_not_mem _ _ _ _ hj

theorem applyWallColor_apply_of_mem (alg : ActiveAlgorithm) (base : ℕ → ℕ)
    (w : WallSurface) {p : ℕ} (hp : p ∈ w.pixels) :
    applyWallColor alg base w (p * 4) = (wallWrittenRGB alg w p).1 ∧
      applyWallColor alg base w (p * 4 + 1) = (wallWrittenRGB alg w p).2.1 ∧
      applyWallColor alg base w (p * 4 + 2) = (wallWrittenRGB alg w p).2.2 := by
  cases alg with
  | retinex pre => exact applyRetinexRecolor_apply_of_mem _ _ _ _ hp
  | intrinsic dec => exact applyReflectanceColor_apply_of_mem _ _ _ _ hp

/-- Byte-level behaviour of `reapplyWalls` at one pixel: the last enabled wall
containing the pixel wins; with none, the pristine bytes survive.  The alpha
byte is never written. -/
theorem reapplyWalls_bytes (alg : ActiveAlgorithm) (walls : List WallSurface)
    (orig : ℕ → ℕ) (p : ℕ) :
    ((walls.filter fun w => w.enabled && decide (p ∈ w.pixels)).getLast? = none →
      reapplyWalls alg walls orig (p * 4) = orig (p * 4) ∧
      reapplyWalls alg walls orig (p * 4 + 1) = orig (p * 4 + 1) ∧
      reapplyWalls alg walls orig (p * 4 + 2) = orig (p * 4 + 2)) ∧
    (∀ w, (walls.filter fun w => w.enabled && decide (p ∈ w.pixels)).getLast? = some w →
      reapplyWalls alg walls orig (p * 4) = (wallWrittenRGB alg w p).1 ∧
      reapplyWalls alg walls orig (p * 4 + 1) = (wallWrittenRGB alg w p).2.1 ∧
      reapplyWalls alg walls orig (p * 4 + 2) = (wallWrittenRGB alg w p).2.2) ∧
    reapplyWalls alg walls orig (p * 4 + 3) = orig (p * 4 + 3) := by
  induction walls generalizing orig with
  | nil =>
      exact ⟨fun _ => ⟨rfl, rfl, rfl⟩, fun w hw => by simp at hw, rfl⟩
  | cons w rest ih =>
      have hstep : reapplyWalls alg (w :: rest) orig =
          reapplyWalls alg rest (if w.enabled then applyWallColor alg orig w else orig) := rfl
      set orig2 := if w.enabled then applyWallColor alg orig w else orig with horig2
      have ihp := ih orig2
      have halpha2 : orig2 (p * 4 + 3) = orig (p * 4 + 3) := by
        rw [horig2]
        by_cases he : w.enabled
        · rw [if_pos he, applyWallColor_alpha]
        · rw [if_neg he]
      by_cases hcw : (w.enabled && decide (p ∈ w.pixels)) = true
      · have hen : w.enabled = true := by
          rcases Bool.and_eq_true_iff.mp hcw with ⟨h1, _⟩
          exact h1
        have hpm : p ∈ w.pixels := by
          rcases Bool.and_eq_true_iff.mp hcw with ⟨_, h2⟩
          exact of_decide_eq_true h2
        have hfil : (w :: rest).filter (fun w => w.enabled && decide (p ∈ w.pixels)) =
            w :: rest.filter (fun w => w.enabled && decide (p ∈ w.pixels)) :=
          List.filter_cons_of_pos hcw
        have horig2v : orig2 (p * 4) = (wallWrittenRGB alg w p).1 ∧
            orig2 (p * 4 + 1) = (wallWrittenRGB alg w p).2.1 ∧
            orig2 (p * 4 + 2) = (wallWrittenRGB alg w p).2.2 := by
          rw [horig2, if_pos hen]
          exact applyWallColor_apply_of_mem alg orig w hpm
        by_cases hrest : rest.filter (fun w => w.enabled && decide (p ∈ w.pixels)) = []
        · refine ⟨fun hnone => ?_, fun w2 hw2 => ?_, ?_⟩
          · rw [hfil, hrest] at hnone
            simp at hnone
          · rw [hfil, hrest] at hw2
            simp only [List.getLast?_singleton, Option.some.injEq] at hw2
            subst hw2
            have hbytes := (ihp.1 (by rw [hrest]; rfl))
            rw [hstep]
            exact ⟨hbytes.1.trans horig2v.1, hbytes.2.1.trans horig2v.2.1,
              hbytes.2.2.trans horig2v.2.2⟩
          · rw [hstep]
            exact ihp.2.2.trans halpha2
        · obtain ⟨a, l2, hal⟩ := List.exists_cons_of_ne_nil hrest
          have hlast : ((w :: rest).filter
              (fun w => w.enabled && decide (p ∈ w.pixels))).getLast? =
              (rest.filter (fun w => w.enabled && decide (p ∈ w.pixels))).getLast? := by
            rw [hfil, hal, List.getLast?_cons_cons]
          refine ⟨fun hnone => ?_, fun w2 hw2 => ?_, ?_⟩
          · rw [hlast, hal] at hnone
            simp at hnone
          · rw [hlast] at hw2
            rw [hstep]
            exact ihp.2.1 w2 hw2
          · rw [hstep]
            exact ihp.2.2.trans halpha2
      · have hfil : (w :: rest).filter (fun w => w.enabled && decide (p ∈ w.pixels)) =
            rest.filter (fun w => w.enabled && decide (p ∈ w.pixels)) :=
          List.filter_cons_of_neg (by simpa using hcw)
        have horig2u : orig2 (p * 4) = orig (p * 4) ∧
            orig2 (p * 4 + 1) = orig (p * 4 + 1) ∧
            orig2 (p * 4 + 2) = orig (p * 4 + 2) := by
          rw [horig2]
          by_cases he : w.enabled
          · have hpnm : p ∉ w.pixels := by
              intro hmem
              exact hcw (by simp [he, hmem])
            have h4 : ∀ c : ℕ, c < 3 → (p * 4 + c) / 4 ∉ w.pixels := by
              intro c hc
              have : (p * 4 + c) / 4 = p := by omega
              rw [this]
              exact hpnm
            rw [if_pos he]
            refine ⟨?_, ?_, ?_⟩
            · have := applyWallColor_apply_of_not_mem alg orig w
                (j := p * 4) (by simpa using h4 0 (by norm_num))
              exact this
            · exact applyWallColor_apply_of_not_mem alg orig w (h4 1 (by norm_num))
            · exact applyWallColor_apply_of_not_mem alg orig w (h4 2 (by norm_num))
          · rw [if_neg he]
            exact ⟨rfl, rfl, rfl⟩
        refine ⟨fun hnone => ?_, fun w2 hw2 => ?_, ?_⟩
        · rw [hfil] at hnone
          have hbytes := ihp.1 hnone
          rw [hstep]
          exact ⟨hbytes.1.trans horig2u.1, hbytes.2.1.trans horig2u.2.1,
            hbytes.2.2.trans horig2u.2.2⟩
        · rw [hfil] at hw2
          rw [hstep]
          exact ihp.2.1 w2 hw2
        · rw [hstep]
          exact ihp.2.2.trans halpha2

/-- C6: `reapplyWalls` rebuilds from the pristine base applying every enabled
surface in creation (array) order, skipping disabled ones; on overlaps the
LAST enabled surface containing a pixel determines its RGB bytes (last
applied wins, not blended); pixels under no enabled surface keep all four
pristine bytes; and (amended) after disabling a surface, reapplying restores
those of its pixels that no other enabled surface covers to the pristine
base exactly. -/
theorem reapplyWalls_spec (alg : ActiveAlgorithm) (walls : List WallSurface)
    (orig : ℕ → ℕ) (p : ℕ) :
    ((walls.filter fun w => w.enabled && decide (p ∈ w.pixels)).getLast? = none →
      ∀ c < 4, reapplyWalls alg walls orig (p * 4 + c) = orig (p * 4 + c)) ∧
    (∀ w, (walls.filter fun w => w.enabled && decide (p ∈ w.pixels)).getLast? = some w →
      reapplyWalls alg walls orig (p * 4) = (wallWrittenRGB alg w p).1 ∧
      reapplyWalls alg walls orig (p * 4 + 1) = (wallWrittenRGB alg w p).2.1 ∧
      reapplyWalls alg walls orig (p * 4 + 2) = (wallWrittenRGB alg w p).2.2 ∧
      reapplyWalls alg walls orig (p * 4 + 3) = orig (p * 4 + 3)) ∧
    (∀ w ∈ walls, w.enabled = false → p ∈ w.pixels →
      (∀ w2 ∈ walls, w2.enabled = true → p ∉ w2.pixels) →
      ∀ c < 4, reapplyWalls alg walls orig (p * 4 + c) = orig (p * 4 + c)) := by
  obtain ⟨hnone, hsome, halpha⟩ := reapplyWalls_bytes alg walls orig p
  have hbyc : (walls.filter fun w => w.enabled && decide (p ∈ w.pixels)).getLast? = none →
      ∀ c < 4, reapplyWalls alg walls orig (p * 4 + c) = orig (p * 4 + c) := by
    intro hn c hc
    obtain ⟨h0, h1, h2⟩ := hnone hn
    interval_cases c
    · simpa using h0
    · exact h1
    · exact h2
    · exact halpha
  refine ⟨hbyc, fun w hw => ⟨(hsome w hw).1, (hsome w hw).2.1, (hsome w hw).2.2, halpha⟩,
    fun w hwmem hwdis hwpix hothers => ?_⟩
  apply hbyc
  rw [List.filter_eq_nil_iff.mpr]
  · rfl
  · intro w2 hw2
    by_cases he : w2.enabled
    · have := hothers w2 hw2 he
      simp [this]
    · simp [he]

theorem reapplyWalls_spec_witness :
    ((([⟨[1], ⟨1, 2, 3⟩, true⟩, ⟨[0], ⟨4, 5, 6⟩, false⟩] : List WallSurface).filter
        fun w => w.enabled && decide ((0 : ℕ) ∈ w.pixels)).getLast? = none) ∧
    (∀ c < 4, reapplyWalls (.retinex ⟨fun _ => 1, fun _ => 0, fun _ => 0, fun _ => 1, fun _ => 1⟩)
        [⟨[1], ⟨1, 2, 3⟩, true⟩, ⟨[0], ⟨4, 5, 6⟩, false⟩] (fun _ => 9) (0 * 4 + c) =
      (fun _ : ℕ => (9 : ℕ)) (0 * 4 + c)) :=
  ⟨by decide,
    (reapplyWalls_spec (.retinex ⟨fun _ => 1, fun _ => 0, fun _ => 0, fun _ => 1, fun _ => 1⟩)
      [⟨[1], ⟨1, 2, 3⟩, true⟩, ⟨[0], ⟨4, 5, 6⟩, false⟩] (fun _ => 9) 0).1 (by decide)⟩

theorem linearToSrgb_zero : linearToSrgb 0 = 0 := by
  rw [linearToSrgb]
  norm_num

/-- C6 (counterexample to the unqualified restore statement): with two
overlapping surfaces - an enabled red one and a disabled one - on the same
single-pixel mask, `reapplyWalls` leaves the red byte of the disabled
surface's pixel at the enabled wall's written value (0 here, via a zero
shade field), not the pristine value 255. -/
theorem reapplyWalls_disable_restore_cex :
    reapplyWalls (.retinex ⟨fun _ => 1, fun _ => 0, fun _ => 0, fun _ => 1, fun _ => 0⟩)
        [⟨[0], ⟨255, 0, 0⟩, true⟩, ⟨[0], ⟨0, 255, 0⟩, false⟩] (fun _ => 255) (0 * 4) = 0 ∧
    reapplyWalls (.retinex ⟨fun _ => 1, fun _ => 0, fun _ => 0, fun _ => 1, fun _ => 0⟩)
        [⟨[0], ⟨255, 0, 0⟩, true⟩, ⟨[0], ⟨0, 255, 0⟩, false⟩] (fun _ => 255) (0 * 4) ≠
      (fun _ : ℕ => (255 : ℕ)) (0 * 4) := by
  have hmain : reapplyWalls (.retinex ⟨fun _ => 1, fun _ => 0, fun _ => 0, fun _ => 1, fun _ => 0⟩)
      [⟨[0], ⟨255, 0, 0⟩, true⟩, ⟨[0], ⟨0, 255, 0⟩, false⟩] (fun _ => 255) (0 * 4) = 0 := by
    have h1 : reapplyWalls (.retinex ⟨fun _ => 1, fun _ => 0, fun _ => 0, fun _ => 1, fun _ => 0⟩)
        [⟨[0], ⟨255, 0, 0⟩, true⟩, ⟨[0], ⟨0, 255, 0⟩, false⟩] (fun _ => 255) =
        applyRetinexRecolor (fun _ => 255) [0] ⟨255, 0, 0⟩
          ⟨fun _ => 1, fun _ => 0, fun _ => 0, fun _ => 1, fun _ => 0⟩ := by
      rw [reapplyWalls, List.foldl_cons, List.foldl_cons, List.foldl_nil]
      norm_num [applyWallColor]
    rw [h1,
      (applyRetinexRecolor_apply_of_mem _ _ _ _ (List.mem_singleton.mpr rfl)).1]
    rw [retinexWrittenRGB]
    norm_num [JSVal.jdiv_num_of_ne _ (by norm_num : (1:ℝ) ≠ 0), labToLinearRgbJ_num,
      linearToSrgbJ, JSVal.toUint8Clamp, linearToSrgb_zero]
  exact ⟨hmain, by rw [hmain]; norm_num⟩

theorem undo_redo_spec_witness :
    (undo ⟨[⟨[1], 0⟩], 0, [1]⟩ = ⟨[⟨[1], 0⟩], 0, [1]⟩) ∧
    (redo ⟨[⟨[1], 0⟩, ⟨[2], 1⟩], 1, [2]⟩ = ⟨[⟨[1], 0⟩, ⟨[2], 1⟩], 1, [2]⟩) ∧
    ((undo ⟨[⟨[1], 0⟩, ⟨[2], 1⟩], 1, [2]⟩).cursor = 0 ∧
      (undo ⟨[⟨[1], 0⟩, ⟨[2], 1⟩], 1, [2]⟩).entries = [⟨[1], 0⟩, ⟨[2], 1⟩]) ∧
    redo (undo ⟨[⟨[1], 0⟩, ⟨[2], 1⟩], 1, [2]⟩) = ⟨[⟨[1], 0⟩, ⟨[2], 1⟩], 1, [2]⟩ :=
  ⟨undo_redo_spec.1 _ (by decide),
   undo_redo_spec.2.1 _ (by decide),
   by
     have := undo_redo_spec.2.2.1 ⟨[⟨[1], 0⟩, ⟨[2], 1⟩], 1, [2]⟩ (by decide)
     simpa using this,
   undo_redo_spec.2.2.2.2 ⟨[⟨[1], 0⟩, ⟨[2], 1⟩], 1, [2]⟩ ⟨[2], 1⟩ (by decide) (by decide)
     (by decide) (by decide)⟩

end
